import Mathlib

/-!
Verification development for `26_multithread_ui/ui2d/ui2d.go`.

A shallow embedding of the render client of the tile game: the atlas index
loader (`loadTextureIndex`), the camera update and tile scan of `Draw`, and
the per-frame cycle of `Run`.

Conventions of the embedding.

* A Go panic is `none`; a normal return is `some`.
* Machine integers are `Int` with explicit two's complement wrap: `int64`
  from `strconv.ParseInt(_, 10, 64)` and Go `int`, taken at its 64-bit width
  (camera centre, player position), wrap by `wrap64`; the `int32` fields of
  `sdl.Rect` by `toInt32`.  Where an `int` expression is converted to `int32`
  at once, `toInt32` is applied to the exact value, which gives the same
  result as wrapping to 64 bits first (`toInt32_wrap64`).
* Text is a list of Unicode code points (`List Char`), i.e. valid UTF-8.
* Everything the program gets from outside the repository (the SDL event
  queue, the keyboard array, the channels, `math/rand`) is an explicit input
  of the definitions.
-/

namespace Ui2d

/-! ## Data model -/

/-- Go `rune`: `game.Tile` is declared as `type Tile rune`. -/
abbrev Tile := Int

/-- Go `game.Pos`, a pair of `int` coordinates. -/
structure Pos where
  X : Int
  Y : Int
deriving DecidableEq, Repr

/-- Go `sdl.Rect`: four `int32` fields. -/
structure Rect where
  X : Int
  Y : Int
  W : Int
  H : Int
deriving DecidableEq, Repr

/-- Two's complement wrap of an integer to 64 bits (Go `int64` arithmetic). -/
def wrap64 (v : Int) : Int :=
  (v + 9223372036854775808) % 18446744073709551616 - 9223372036854775808

/-- Go conversion `int32(v)`: two's complement wrap to 32 bits. -/
def toInt32 (v : Int) : Int :=
  (v + 2147483648) % 4294967296 - 2147483648

/-- Go `map[game.Tile][]sdl.Rect`; `none` is an absent key. -/
abbrev Table := Tile → Option (List Rect)

/-- Go `make(map[game.Tile][]sdl.Rect)`: the map without keys. -/
def Table.empty : Table :=
  fun _ => none

/-- Assignment `m[k] = v` on a Go map. -/
def Table.store (m : Table) (k : Tile) (v : List Rect) : Table :=
  fun q => if q = k then some v else m q

/-- Read `m[k]` on a Go map: an absent key yields the nil slice. -/
def Table.read (m : Table) (k : Tile) : List Rect :=
  (m k).getD []

/-! ## Text helpers used by `loadTextureIndex` -/

/-- Go `unicode.IsSpace`. -/
def isSpace (c : Char) : Bool :=
  let n := c.toNat
  (9 ≤ n && n ≤ 13) || n == 32 || n == 133 || n == 160 || n == 5760 ||
  (8192 ≤ n && n ≤ 8202) || n == 8232 || n == 8233 || n == 8239 ||
  n == 8287 || n == 12288

/-- Go `strings.TrimSpace`. -/
def trimSpace (s : List Char) : List Char :=
  ((s.dropWhile isSpace).reverse.dropWhile isSpace).reverse

/-- Go `strings.Split(s, ",")`: the fields between commas, never empty. -/
def splitComma : List Char → List (List Char)
  | [] => [[]]
  | c :: cs =>
    match splitComma cs with
    | [] => [[c]]
    | f :: fs => if c.toNat = 44 then [] :: f :: fs else (c :: f) :: fs

/-- Value of a decimal digit, `none` for any other character. -/
def digitVal (c : Char) : Option Nat :=
  if 48 ≤ c.toNat ∧ c.toNat ≤ 57 then some (c.toNat - 48) else none

/-- Digit loop of `strconv.ParseUint` in base 10. -/
def parseDigits : List Char → Nat → Option Nat
  | [], acc => some acc
  | c :: cs, acc =>
    match digitVal c with
    | none => none
    | some d => parseDigits cs (acc * 10 + d)

/-- Go `strconv.ParseInt(s, 10, 64)`; `none` when it returns an error
(empty input, a non-digit, or a value outside `int64`). -/
def ParseInt (s : List Char) : Option Int :=
  match s with
  | [] => none
  | c :: cs =>
    let body := if c.toNat = 43 ∨ c.toNat = 45 then cs else s
    match body with
    | [] => none
    | _ :: _ =>
      match parseDigits body 0 with
      | none => none
      | some un =>
        if c.toNat = 45 then
          (if un > 9223372036854775808 then none else some (-(un : Int)))
        else
          (if un ≥ 9223372036854775808 then none else some (un : Int))

/-! ## Atlas index (`loadTextureIndex`) -/

/-- The variant loop of `loadTextureIndex` (lines 104-113): `k` iterations
remain, `x` and `y` are the running `int64` cell, `rects` the slice so far. -/
def rectLoop : Nat → Int → Int → List Rect → List Rect
  | 0, _, _, rects => rects
  | k + 1, x, y, rects =>
    let rects1 := rects ++ [⟨toInt32 (wrap64 (x * 32)), toInt32 (wrap64 (y * 32)), 32, 32⟩]
    let x1 := wrap64 (x + 1)
    if x1 > 62 then rectLoop k 0 (wrap64 (y + 1)) rects1
    else rectLoop k x1 y rects1

/-- The rectangles built for one descriptor line: the loop runs while
`i < variationCount`, that is `variationCount` times, or not at all when the
count is zero or negative. -/
def lineRects (x y variationCount : Int) : List Rect :=
  rectLoop variationCount.toNat x y []

/-- Parsing of one descriptor line (lines 86-103): the tile key and the three
integers, `none` when the line makes the loader panic.  The key is the first
byte of the trimmed line; when the first character is not ASCII the rest of
the line starts inside that character, the first field is then not a number
and `ParseInt` fails. -/
def parseLine (raw : List Char) : Option (Tile × Int × Int × Int) :=
  match trimSpace raw with
  | [] => none
  | c :: xy =>
    if 128 ≤ c.toNat then none
    else
      match splitComma xy with
      | fx :: fy :: fc :: _ =>
        match ParseInt (trimSpace fx) with
        | none => none
        | some x =>
          match ParseInt (trimSpace fy) with
          | none => none
          | some y =>
            match ParseInt (trimSpace fc) with
            | none => none
            | some n => some ((c.toNat : Int), x, y, n)
      | _ => none

/-- One iteration of the scanner loop of `loadTextureIndex`. -/
def processLine (tbl : Table) (raw : List Char) : Option Table :=
  match parseLine raw with
  | none => none
  | some (t, x, y, n) => some (tbl.store t (lineRects x y n))

/-- The scanner loop over the lines of the descriptor. -/
def scanLines (tbl : Table) : List (List Char) → Option Table
  | [] => some tbl
  | l :: ls =>
    match processLine tbl l with
    | none => none
    | some t => scanLines t ls

/-- Go `ui.loadTextureIndex`, on the lines the scanner yields. -/
def loadTextureIndex (lines : List (List Char)) : Option Table :=
  scanLines Table.empty lines

/-! ## Camera and tile scan (`Draw`) -/

/-- Go `game.Level` as far as `Draw` reads it: the tile grid, the player
position and the debug set (`map[Pos]bool`, an absent key reads `false`). -/
structure Level where
  Map : List (List Tile)
  Player : Pos
  Debug : Pos → Bool

/-- Contract of the generator `*rand.Rand` of the standard library, which is
not part of the repository: `Seed` replaces the whole generator state by one
that depends on the seed only, and `Intn(n)` with `0 < n` is a deterministic
function of the state that returns a value below `n` and the next state. -/
structure Rand where
  State : Type
  seed : Int → State
  intn : State → Nat → Nat × State
  intn_lt : ∀ s n, 0 < n → (intn s n).1 < n

/-- A small linear congruential generator meeting the contract of `Rand`;
it stands in for the library generator in concrete evaluations. -/
def lcg : Rand where
  State := Nat
  seed := fun s => s.toNat % 2147483648
  intn := fun st n =>
    ((st * 1103515245 + 12345) % 2147483648 / 65536 % n,
     (st * 1103515245 + 12345) % 2147483648)
  intn_lt := fun _ _ h => Nat.mod_lt _ h

/-- The fields of the Go struct `ui` that `Draw` and `Run` read or write.
`keyboardState` aliases the array owned by SDL and is therefore an input of
each cycle, not a field. -/
structure UI (R : Rand) where
  winWidth : Int
  winHeight : Int
  textureIndex : Table
  prevKeyboardState : List Nat
  centerX : Int
  centerY : Int
  r : R.State
  levelChan : Nat

/-- One `renderer.Copy` of a map tile: the cell, the variant index drawn
from the generator, source and destination rectangle, and whether the
debug colour modulation was set. -/
structure TileDraw where
  x : Nat
  y : Nat
  variant : Nat
  src : Rect
  dst : Rect
  tinted : Bool
deriving DecidableEq, Repr

/-- What one call of `Draw` sends to the renderer between `Clear` and
`Present`: the tile copies in order, then the player sprite. -/
structure Frame where
  tiles : List TileDraw
  playerSrc : Rect
  playerDst : Rect
deriving DecidableEq, Repr

/-- A value of Go `int`, taken at its 64-bit width. -/
def isInt (v : Int) : Prop :=
  -9223372036854775808 ≤ v ∧ v ≤ 9223372036854775807

/-- A value of Go `int` from which adding or subtracting 5 does not
overflow: at least 5 away from both ends of the 64-bit range. -/
def isSafe (v : Int) : Prop :=
  -9223372036854775803 ≤ v ∧ v ≤ 9223372036854775802

/-- Camera update at the start of `Draw` (lines 181-194): lazy
initialisation of the centre, then the deadzone chain, in the wrapping
arithmetic of Go `int`. -/
def cameraUpdate (center player : Pos) : Pos :=
  let c := if center.X = -1 ∧ center.Y = -1 then player else center
  if player.X > wrap64 (c.X + 5) then ⟨wrap64 (c.X + 1), c.Y⟩
  else if player.X < wrap64 (c.X - 5) then ⟨wrap64 (c.X - 1), c.Y⟩
  else if player.Y > wrap64 (c.Y + 5) then ⟨c.X, wrap64 (c.Y + 1)⟩
  else if player.Y < wrap64 (c.Y - 5) then ⟨c.X, wrap64 (c.Y - 1)⟩
  else c

/-- Inner loop of `Draw` (lines 206-222) over the rest of row `y`, from
column `x` on.  `Intn` panics on a zero length, indexing panics out of
range. -/
def drawRow (R : Rand) (tbl : Table) (blank : Tile) (debug : Pos → Bool)
    (offsetX offsetY : Int) (y : Nat) :
    List Tile → Nat → R.State → List TileDraw → Option (R.State × List TileDraw)
  | [], _, s, acc => some (s, acc)
  | tile :: rest, x, s, acc =>
    if tile ≠ blank then
      let srcRects := tbl.read tile
      if srcRects.length = 0 then none
      else
        match srcRects[(R.intn s srcRects.length).1]? with
        | none => none
        | some srcRect =>
          let dstRect : Rect :=
            ⟨toInt32 (toInt32 ((x : Int) * 32) + offsetX),
             toInt32 (toInt32 ((y : Int) * 32) + offsetY), 32, 32⟩
          drawRow R tbl blank debug offsetX offsetY y rest (x + 1)
            (R.intn s srcRects.length).2
            (acc ++ [⟨x, y, (R.intn s srcRects.length).1, srcRect, dstRect,
              debug ⟨(x : Int), (y : Int)⟩⟩])
    else drawRow R tbl blank debug offsetX offsetY y rest (x + 1) s acc

/-- Outer loop of `Draw` (line 205) over the remaining rows, from row `y`. -/
def drawRows (R : Rand) (tbl : Table) (blank : Tile) (debug : Pos → Bool)
    (offsetX offsetY : Int) :
    List (List Tile) → Nat → R.State → List TileDraw → Option (R.State × List TileDraw)
  | [], _, s, acc => some (s, acc)
  | row :: rows, y, s, acc =>
    match drawRow R tbl blank debug offsetX offsetY y row 0 s acc with
    | none => none
    | some (s1, acc1) => drawRows R tbl blank debug offsetX offsetY rows (y + 1) s1 acc1

/-- Go `ui.Draw`.  `blank` is the constant `game.Blank`, declared in the game
package of this program. -/
def Draw (R : Rand) (blank : Tile) (ui : UI R) (level : Level) :
    Option (UI R × Frame) :=
  let c := cameraUpdate ⟨ui.centerX, ui.centerY⟩ level.Player
  let offsetX := toInt32 (Int.tdiv ui.winWidth 2 - c.X * 32)
  let offsetY := toInt32 (Int.tdiv ui.winHeight 2 - c.Y * 32)
  match drawRows R ui.textureIndex blank level.Debug offsetX offsetY level.Map 0
      (R.seed 1) [] with
  | none => none
  | some (s, tiles) =>
    some (⟨ui.winWidth, ui.winHeight, ui.textureIndex, ui.prevKeyboardState, c.X, c.Y, s,
            ui.levelChan⟩,
          ⟨tiles, ⟨21 * 32, 59 * 32, 32, 32⟩,
           ⟨toInt32 (toInt32 (toInt32 level.Player.X * 32) + offsetX),
            toInt32 (toInt32 (toInt32 level.Player.Y * 32) + offsetY), 32, 32⟩⟩)

/-- The variant indices of a frame, with the cell of each. -/
def Frame.picks (f : Frame) : List (Nat × Nat × Nat) :=
  f.tiles.map (fun t => (t.x, t.y, t.variant))

/-- The variant index drawn for cell `(x, y)` in a frame, if that cell was
drawn. -/
def Frame.variantAt (f : Frame) (x y : Nat) : Option Nat :=
  (f.tiles.find? (fun t => t.x == x && t.y == y)).map (fun t => t.variant)

/-- The camera centre after `n` calls of `Draw` with the player at `p`. -/
def cameraIter (p : Pos) : Nat → Pos → Pos
  | 0, c => c
  | n + 1, c => cameraIter p n (cameraUpdate c p)

/-- Modelled from the spec: the constants of `game.InputType`, declared in the
game package, which is not among the sources.  The spec lists Move-Up,
Move-Down, Move-Left, Move-Right, Search, Quit-Game and Close-Window; `None`
is the zero value that `Run` compares against before sending. -/
inductive InputType where
  | None
  | Up
  | Down
  | Left
  | Right
  | QuitGame
  | CloseWindow
  | Search
deriving DecidableEq, Repr

/-- Go `game.Input`: the type tag and, for Close-Window, the level channel of
the sending client (`none` is the nil channel). -/
structure Input where
  Typ : InputType
  LevelChannel : Option Nat
deriving DecidableEq, Repr

/-- SDL scancodes of the tracked keys. -/
def SCANCODE_UP : Nat := 82

/-- SDL scancode of the Down arrow. -/
def SCANCODE_DOWN : Nat := 81

/-- SDL scancode of the Left arrow. -/
def SCANCODE_LEFT : Nat := 80

/-- SDL scancode of the Right arrow. -/
def SCANCODE_RIGHT : Nat := 79

/-- SDL scancode of the key S. -/
def SCANCODE_S : Nat := 22

/-- The tracked keys in the order `Run` tests them, each with the input type
it assigns. -/
def trackedKeys : List (Nat × InputType) :=
  [(SCANCODE_UP, InputType.Up), (SCANCODE_DOWN, InputType.Down),
   (SCANCODE_LEFT, InputType.Left), (SCANCODE_RIGHT, InputType.Right),
   (SCANCODE_S, InputType.Search)]

/-- The Go condition `keyboardState[k] != 0 && prevKeyboardState[k] == 0`
with its short-circuit evaluation; `none` is an index out of range. -/
def justPressed (keyboardState prevKeyboardState : List Nat) (k : Nat) : Option Bool :=
  match keyboardState[k]? with
  | none => none
  | some v =>
    if v ≠ 0 then
      match prevKeyboardState[k]? with
      | none => none
      | some p => some (p == 0)
    else some false

/-- Whether key `k` is pressed in a keyboard sample (its byte is not 0). -/
def isDown (state : List Nat) (k : Nat) : Bool :=
  match state[k]? with
  | some v => v != 0
  | none => false

/-- Key `k` went from released in the previous sample to pressed in the
current one. -/
def edge (keyboardState prevKeyboardState : List Nat) (k : Nat) : Bool :=
  isDown keyboardState k && !isDown prevKeyboardState k

/-- The five `if` statements of lines 260-275, run in order on `typ`. -/
def pollKeys (keyboardState prevKeyboardState : List Nat) :
    List (Nat × InputType) → InputType → Option InputType
  | [], typ => some typ
  | (k, t) :: rest, typ =>
    match justPressed keyboardState prevKeyboardState k with
    | none => none
    | some b => pollKeys keyboardState prevKeyboardState rest (if b then t else typ)

/-- The loop `for i, v := range ui.keyboardState { ui.prevKeyboardState[i] = v }`;
`none` when the previous-state slice is too short. -/
def copyKeys : List Nat → List Nat → Option (List Nat)
  | [], prev => some prev
  | _ :: _, [] => none
  | v :: vs, _ :: ps => (copyKeys vs ps).map (fun q => v :: q)

/-- The keyboard block of `Run` for a focused window (lines 259-284): the
inputs sent on the input channel and the new previous-state slice. -/
def handleKeys (keyboardState prevKeyboardState : List Nat) :
    Option (List Input × List Nat) :=
  match pollKeys keyboardState prevKeyboardState trackedKeys InputType.None with
  | none => none
  | some typ =>
    match copyKeys keyboardState prevKeyboardState with
    | none => none
    | some prev1 =>
      some (if typ ≠ InputType.None then [⟨typ, none⟩] else [], prev1)

/-- The platform events `Run` distinguishes: `*sdl.QuitEvent`, a
`*sdl.WindowEvent` with `WINDOWEVENT_CLOSE`, and anything else. -/
inductive Event where
  | quit
  | windowClose
  | other
deriving DecidableEq, Repr

/-- Outcome of the non-blocking receive on the level channel: nothing
pending (the `default` branch), the channel is closed (`ok` false), or a
level. -/
inductive Recv where
  | empty
  | closed
  | value (level : Level)

/-- What the environment supplies during one iteration of the loop of `Run`:
the events `PollEvent` returns before `nil`, the outcome of the receive,
whether this window has keyboard and mouse focus, and the keyboard array of
SDL when it is sampled. -/
structure Cycle where
  events : List Event
  recv : Recv
  focus : Bool
  keyboardState : List Nat

/-- What the client does in one iteration: the inputs it sends, in order,
and the frame it draws, if any. -/
structure Out where
  sent : List Input
  frame : Option Frame
deriving DecidableEq, Repr

/-- The inputs sent by the event loop of lines 234-244. -/
def eventInputs (levelChan : Nat) : List Event → List Input
  | [] => []
  | Event.quit :: es => ⟨InputType.QuitGame, none⟩ :: eventInputs levelChan es
  | Event.windowClose :: es =>
    ⟨InputType.CloseWindow, some levelChan⟩ :: eventInputs levelChan es
  | Event.other :: es => eventInputs levelChan es

/-- The `select` statement of lines 247-254: a received level is drawn, a
closed channel or an empty one leaves the client as it is. -/
def pollLevel (R : Rand) (blank : Tile) (ui : UI R) : Recv → Option (UI R × Option Frame)
  | Recv.value level =>
    match Draw R blank ui level with
    | none => none
    | some (ui1, f) => some (ui1, some f)
  | Recv.closed => some (ui, none)
  | Recv.empty => some (ui, none)

/-- One iteration of the body of the `for` loop of `Run` (lines 233-286).
Every send on the input channel is taken to complete.  The body holds no
`break` and no `return`; it ends by falling through to the next iteration,
or by a panic (`none`). -/
def runCycle (R : Rand) (blank : Tile) (ui : UI R) (c : Cycle) : Option (UI R × Out) :=
  let sent1 := eventInputs ui.levelChan c.events
  match pollLevel R blank ui c.recv with
  | none => none
  | some (ui1, frame) =>
    if c.focus then
      match handleKeys c.keyboardState ui1.prevKeyboardState with
      | none => none
      | some (sent2, prev1) =>
        some (⟨ui1.winWidth, ui1.winHeight, ui1.textureIndex, prev1, ui1.centerX,
                ui1.centerY, ui1.r, ui1.levelChan⟩, ⟨sent1 ++ sent2, frame⟩)
    else some (ui1, ⟨sent1, frame⟩)

/-- Go `ui.Run` on a finite stretch of its environment: the loop `for { ... }`
has no exit, so an iteration is run for each element of the list, one after
the other, unless one panics. -/
def Run (R : Rand) (blank : Tile) : List Cycle → UI R → Option (UI R × List Out)
  | [], ui => some (ui, [])
  | c :: cs, ui =>
    match runCycle R blank ui c with
    | none => none
    | some (ui1, o) =>
      match Run R blank cs ui1 with
      | none => none
      | some (ui2, os) => some (ui2, o :: os)

/-- The state `NewUI` returns, for a loaded atlas index, the keyboard array
at start-up and the level channel of the client: window 1280 by 720, centre
uninitialised at `(-1, -1)`, generator seeded with 1. -/
def NewUI (R : Rand) (tbl : Table) (keyboardState : List Nat) (levelChan : Nat) : UI R :=
  ⟨1280, 720, tbl, keyboardState, -1, -1, R.seed 1, levelChan⟩

/-! ## Functions used to state the results -/

/-- The rectangle the variant loop is shown to store for variant `i` of a
line that starts at cell `(x, y)`: the running column has period 63. -/
def cellRect (x y : Int) (i : Nat) : Rect :=
  ⟨toInt32 (32 * ((x + i) % 63)), toInt32 (32 * (y + (x + i) / 63)), 32, 32⟩

/-- Decimal digits of a natural number, most significant first; `0` for 0. -/
def showNat (n : Nat) : List Char :=
  if n = 0 then [Char.ofNat 48]
  else (Nat.digits 10 n).reverse.map (fun d => Char.ofNat (48 + d))

/-- Decimal text of an integer, with `-` in front of a negative one. -/
def showInt (v : Int) : List Char :=
  if v < 0 then Char.ofNat 45 :: showNat (-v).toNat else showNat v.toNat

/-- The descriptor line `<tile><x>,<y>,<n>` without blanks. -/
def formatLine (tile : Char) (x y n : Int) : List Char :=
  tile :: (showInt x ++ Char.ofNat 44 :: (showInt y ++ Char.ofNat 44 :: showInt n))

/-- The generator state after the scan of `Draw` has passed the given tiles:
one `Intn` call for each tile that is not blank. -/
def rngAfter (R : Rand) (tbl : Table) (blank : Tile) : List Tile → R.State → R.State
  | [], s => s
  | tile :: rest, s =>
    if tile ≠ blank then rngAfter R tbl blank rest (R.intn s (tbl.read tile).length).2
    else rngAfter R tbl blank rest s

/-- The cells and variant indices the scan of the rest of row `y`, from
column `x` on, is shown to draw. -/
def rowPicks (R : Rand) (tbl : Table) (blank : Tile) (y : Nat) :
    List Tile → Nat → R.State → List (Nat × Nat × Nat)
  | [], _, _ => []
  | tile :: rest, x, s =>
    if tile ≠ blank then
      (x, y, (R.intn s (tbl.read tile).length).1) ::
        rowPicks R tbl blank y rest (x + 1) (R.intn s (tbl.read tile).length).2
    else rowPicks R tbl blank y rest (x + 1) s

/-- The cells and variant indices the scan of the remaining rows, from row
`y` on, is shown to draw. -/
def mapPicks (R : Rand) (tbl : Table) (blank : Tile) :
    List (List Tile) → Nat → R.State → List (Nat × Nat × Nat)
  | [], _, _ => []
  | row :: rows, y, s =>
    rowPicks R tbl blank y row 0 s ++
      mapPicks R tbl blank rows (y + 1) (rngAfter R tbl blank row s)

/-- The tiles that are not blank, in order. -/
def nonBlank (blank : Tile) (tiles : List Tile) : List Tile :=
  tiles.filter (fun t => decide (t ≠ blank))

/-- The variant index listed for cell `(x, y)` in a list of cells with their
variant indices. -/
def pickAt (picks : List (Nat × Nat × Nat)) (x y : Nat) : Option Nat :=
  (picks.find? (fun p => p.1 == x && p.2.1 == y)).map (fun p => p.2.2)

/-- The frames of `n` calls of `Draw` on the same level, one after the
other, with the state the last call leaves. -/
def DrawN (R : Rand) (blank : Tile) (level : Level) : Nat → UI R → Option (UI R × List Frame)
  | 0, ui => some (ui, [])
  | n + 1, ui =>
    match Draw R blank ui level with
    | none => none
    | some (u, f) =>
      match DrawN R blank level n u with
      | none => none
      | some (u2, fs) => some (u2, f :: fs)

/-! ## Lemmas on the atlas index -/

theorem toInt32_wrap64 (v : Int) : toInt32 (wrap64 v) = toInt32 v := by
  unfold toInt32 wrap64
  omega

theorem rectLoop_length (k : Nat) (x y : Int) (acc : List Rect) :
    (rectLoop k x y acc).length = acc.length + k := by
  induction k generalizing x y acc with
  | zero => simp [rectLoop]
  | succ k ih =>
    simp only [rectLoop]
    split <;> rw [ih] <;> simp <;> omega

theorem rectLoop_size (k : Nat) (x y : Int) (acc : List Rect)
    (hacc : ∀ r ∈ acc, r.W = 32 ∧ r.H = 32) :
    ∀ r ∈ rectLoop k x y acc, r.W = 32 ∧ r.H = 32 := by
  induction k generalizing x y acc with
  | zero => simpa [rectLoop] using hacc
  | succ k ih =>
    simp only [rectLoop]
    have h1 : ∀ r ∈ acc ++ [(⟨toInt32 (wrap64 (x * 32)), toInt32 (wrap64 (y * 32)), 32, 32⟩ : Rect)],
        r.W = 32 ∧ r.H = 32 := by
      intro r hr
      rcases List.mem_append.1 hr with h | h
      · exact hacc r h
      · simp at h
        subst h
        exact ⟨rfl, rfl⟩
    split
    · exact ih _ _ _ h1
    · exact ih _ _ _ h1

theorem cellRect_zero (x y : Int) (h0 : 0 ≤ x) (h1 : x ≤ 62) :
    (⟨toInt32 (wrap64 (x * 32)), toInt32 (wrap64 (y * 32)), 32, 32⟩ : Rect) = cellRect x y 0 := by
  simp only [cellRect, toInt32, wrap64, Rect.mk.injEq, and_true]
  constructor <;> omega

theorem cellRect_step (x y : Int) (i : Nat) (h0 : 0 ≤ x) (h1 : x ≤ 62) :
    cellRect x y (i + 1) =
      if wrap64 (x + 1) > 62 then cellRect 0 (wrap64 (y + 1)) i
      else cellRect (wrap64 (x + 1)) y i := by
  have hw : wrap64 (x + 1) = x + 1 := by simp only [wrap64]; omega
  rw [hw]
  split
  · have hx : x = 62 := by omega
    subst hx
    simp only [cellRect, toInt32, wrap64, Rect.mk.injEq, and_true]
    push_cast
    constructor <;> omega
  · simp only [cellRect, Rect.mk.injEq, and_true]
    push_cast
    constructor
    · congr 3; ring
    · congr 4; ring

theorem rectLoop_eq (k : Nat) (x y : Int) (acc : List Rect) (h0 : 0 ≤ x) (h1 : x ≤ 62) :
    rectLoop k x y acc = acc ++ (List.range k).map (cellRect x y) := by
  induction k generalizing x y acc with
  | zero => simp [rectLoop]
  | succ k ih =>
    have hw : wrap64 (x + 1) = x + 1 := by simp only [wrap64]; omega
    have hmap : (List.range (k + 1)).map (cellRect x y) =
        cellRect x y 0 :: (List.range k).map (fun i => cellRect x y (i + 1)) := by
      rw [List.range_succ_eq_map]
      simp [List.map_map, Function.comp_def]
    rw [hmap]
    simp only [rectLoop, cellRect_zero x y h0 h1]
    split
    · rename_i hgt
      rw [ih 0 (wrap64 (y + 1)) _ (le_refl 0) (by norm_num)]
      have : ∀ i, cellRect x y (i + 1) = cellRect 0 (wrap64 (y + 1)) i := by
        intro i; rw [cellRect_step x y i h0 h1, if_pos hgt]
      simp [this]
    · rename_i hgt
      rw [ih (wrap64 (x + 1)) y _ (by omega) (by omega)]
      have : ∀ i, cellRect x y (i + 1) = cellRect (wrap64 (x + 1)) y i := by
        intro i; rw [cellRect_step x y i h0 h1, if_neg hgt]
      simp [this]

theorem scanLines_append (tbl : Table) (a b : List (List Char)) :
    scanLines tbl (a ++ b) = (scanLines tbl a).bind (fun t => scanLines t b) := by
  induction a generalizing tbl with
  | nil => simp [scanLines]
  | cons l ls ih =>
    simp only [List.cons_append, scanLines]
    cases processLine tbl l with
    | none => simp
    | some t => simpa using ih t

theorem scanLines_untouched (tbl tbl1 : Table) (post : List (List Char)) (t : Tile)
    (hlast : ∀ l ∈ post, ∀ q, parseLine l = some q → q.1 ≠ t)
    (h : scanLines tbl post = some tbl1) : tbl1 t = tbl t := by
  induction post generalizing tbl with
  | nil =>
    simp only [scanLines, Option.some.injEq] at h
    rw [h]
  | cons l ls ih =>
    simp only [scanLines, processLine] at h
    cases hp : parseLine l with
    | none => simp [hp] at h
    | some q =>
      obtain ⟨t1, x1, y1, n1⟩ := q
      simp only [hp] at h
      have hne : t1 ≠ t := hlast l (List.mem_cons_self _ _) _ hp
      rw [ih (tbl.store t1 (lineRects x1 y1 n1))
        (fun l1 hl1 q hq => hlast l1 (List.mem_cons_of_mem _ hl1) q hq) h]
      simp only [Table.store]
      rw [if_neg (fun h2 => hne h2.symm)]

theorem load_snoc (pre : List (List Char)) (tbl0 : Table) (line : List Char)
    (t : Tile) (x y n : Int) (hpre : loadTextureIndex pre = some tbl0)
    (hline : parseLine line = some (t, x, y, n)) :
    loadTextureIndex (pre ++ [line]) = some (tbl0.store t (lineRects x y n)) := by
  unfold loadTextureIndex at *
  rw [scanLines_append, hpre]
  simp [scanLines, processLine, hline]

theorem load_entry (pre post : List (List Char)) (line : List Char)
    (tbl : Table) (t : Tile) (x y n : Int)
    (hload : loadTextureIndex (pre ++ line :: post) = some tbl)
    (hline : parseLine line = some (t, x, y, n))
    (hlast : ∀ l ∈ post, ∀ q, parseLine l = some q → q.1 ≠ t) :
    tbl t = some (lineRects x y n) := by
  unfold loadTextureIndex at hload
  rw [scanLines_append] at hload
  cases hpre : scanLines Table.empty pre with
  | none => simp [hpre] at hload
  | some tbl0 =>
    simp only [hpre, Option.some_bind, scanLines, processLine, hline] at hload
    rw [scanLines_untouched _ tbl post t hlast hload]
    simp [Table.store]

theorem lineRects_length (x y n : Int) : (lineRects x y n).length = n.toNat := by
  unfold lineRects
  rw [rectLoop_length]
  simp

/-! ## Lemmas on the text of a descriptor line -/

theorem digitChar_toNat (d : Nat) (hd : d < 10) : (Char.ofNat (48 + d)).toNat = 48 + d := by
  interval_cases d <;> rfl

theorem digitVal_digitChar (d : Nat) (hd : d < 10) : digitVal (Char.ofNat (48 + d)) = some d := by
  simp only [digitVal, digitChar_toNat d hd]
  rw [if_pos (by omega)]
  simp

theorem parseDigits_map (l : List Nat) (hl : ∀ d ∈ l, d < 10) (acc : Nat) :
    parseDigits (l.map (fun d => Char.ofNat (48 + d))) acc =
      some (l.foldl (fun a d => a * 10 + d) acc) := by
  induction l generalizing acc with
  | nil => rfl
  | cons d ds ih =>
    simp only [List.map_cons, parseDigits, digitVal_digitChar d (hl d (List.mem_cons_self _ _)),
      List.foldl_cons]
    exact ih (fun e he => hl e (List.mem_cons_of_mem _ he)) _

theorem foldl_digits (L : List Nat) :
    L.reverse.foldl (fun a d => a * 10 + d) 0 = Nat.ofDigits 10 L := by
  induction L with
  | nil => rfl
  | cons d ds ih =>
    simp only [List.reverse_cons, List.foldl_append, List.foldl_cons, List.foldl_nil, ih,
      Nat.ofDigits_cons]
    ring

theorem parseDigits_showNat (n : Nat) : parseDigits (showNat n) 0 = some n := by
  unfold showNat
  split
  · rename_i h
    subst h
    rfl
  · rw [parseDigits_map _ (by
      intro d hd
      exact Nat.digits_lt_base (by norm_num) (List.mem_reverse.1 hd)), foldl_digits,
      Nat.ofDigits_digits]

theorem showNat_ne_nil (n : Nat) : showNat n ≠ [] := by
  unfold showNat
  split
  · simp
  · rename_i h
    simp only [ne_eq, List.map_eq_nil_iff, List.reverse_eq_nil_iff]
    exact fun h2 => h (Nat.digits_eq_nil_iff_eq_zero.1 h2)

theorem showNat_digit (n : Nat) : ∀ c ∈ showNat n, 48 ≤ c.toNat ∧ c.toNat ≤ 57 := by
  unfold showNat
  split
  · intro c hc
    simp only [List.mem_singleton] at hc
    subst hc
    decide
  · intro c hc
    simp only [List.mem_map, List.mem_reverse] at hc
    obtain ⟨d, hd, rfl⟩ := hc
    have := Nat.digits_lt_base (b := 10) (by norm_num) hd
    rw [digitChar_toNat d this]
    omega

theorem ParseInt_showInt (v : Int) (hlo : -9223372036854775808 ≤ v)
    (hhi : v ≤ 9223372036854775807) : ParseInt (showInt v) = some v := by
  unfold showInt
  split
  · rename_i hneg
    have hne := showNat_ne_nil (-v).toNat
    cases hs : showNat (-v).toNat with
    | nil => exact absurd hs hne
    | cons c cs =>
      have hp := parseDigits_showNat (-v).toNat
      rw [hs] at hp
      have h45 : (Char.ofNat 45).toNat = 45 := rfl
      simp only [ParseInt, h45, or_true, if_true, hp]
      rw [if_neg (by omega)]
      congr 1
      omega
  · rename_i hpos
    have hne := showNat_ne_nil v.toNat
    cases hs : showNat v.toNat with
    | nil => exact absurd hs hne
    | cons c cs =>
      have hp := parseDigits_showNat v.toNat
      rw [hs] at hp
      have hc := showNat_digit v.toNat c (by rw [hs]; exact List.mem_cons_self _ _)
      have h1 : ¬ (c.toNat = 43 ∨ c.toNat = 45) := by omega
      have h2 : ¬ c.toNat = 45 := by omega
      simp only [ParseInt, if_neg h1, if_neg h2, hp]
      rw [if_neg (by omega)]
      congr 1
      omega


theorem showInt_numChar (v : Int) :
    ∀ c ∈ showInt v, (48 ≤ c.toNat ∧ c.toNat ≤ 57) ∨ c.toNat = 45 := by
  unfold showInt
  split
  · intro c hc
    rcases List.mem_cons.1 hc with h | h
    · right
      rw [h]
      rfl
    · exact Or.inl (showNat_digit _ c h)
  · intro c hc
    exact Or.inl (showNat_digit _ c hc)

theorem isSpace_eq_false_of_numChar (c : Char)
    (h : (44 ≤ c.toNat ∧ c.toNat ≤ 57)) : isSpace c = false := by
  simp only [isSpace, Bool.or_eq_false_iff, Bool.and_eq_false_iff, decide_eq_false_iff_not,
    beq_eq_false_iff_ne, ne_eq]
  omega

theorem dropWhile_none (p : Char → Bool) (s : List Char) (h : ∀ c ∈ s, p c = false) :
    s.dropWhile p = s := by
  cases s with
  | nil => rfl
  | cons a l => simp [List.dropWhile, h a (List.mem_cons_self _ _)]

theorem trimSpace_none (s : List Char) (h : ∀ c ∈ s, isSpace c = false) : trimSpace s = s := by
  unfold trimSpace
  rw [dropWhile_none isSpace s h,
    dropWhile_none isSpace s.reverse (fun c hc => h c (List.mem_reverse.1 hc)),
    List.reverse_reverse]

theorem splitComma_ne_nil (s : List Char) : splitComma s ≠ [] := by
  cases s with
  | nil => simp [splitComma]
  | cons c cs =>
    simp only [splitComma]
    split
    · simp
    · split <;> simp

theorem splitComma_none (s : List Char) (h : ∀ c ∈ s, c.toNat ≠ 44) : splitComma s = [s] := by
  induction s with
  | nil => rfl
  | cons c cs ih =>
    simp only [splitComma, ih (fun d hd => h d (List.mem_cons_of_mem _ hd)),
      if_neg (h c (List.mem_cons_self _ _))]

theorem splitComma_field (a b : List Char) (h : ∀ c ∈ a, c.toNat ≠ 44) :
    splitComma (a ++ Char.ofNat 44 :: b) = a :: splitComma b := by
  induction a with
  | nil =>
    have h44 : (Char.ofNat 44).toNat = 44 := rfl
    cases hb : splitComma b with
    | nil => exact absurd hb (splitComma_ne_nil b)
    | cons f fs => simp only [List.nil_append, splitComma, hb, h44, if_true]
  | cons c cs ih =>
    simp only [List.cons_append, splitComma, List.append_eq,
      ih (fun d hd => h d (List.mem_cons_of_mem _ hd)), if_neg (h c (List.mem_cons_self _ _))]

theorem parseLine_formatLine (tile : Char) (x y n : Int) (hascii : tile.toNat < 128)
    (htile : isSpace tile = false)
    (hx : -9223372036854775808 ≤ x ∧ x ≤ 9223372036854775807)
    (hy : -9223372036854775808 ≤ y ∧ y ≤ 9223372036854775807)
    (hn : -9223372036854775808 ≤ n ∧ n ≤ 9223372036854775807) :
    parseLine (formatLine tile x y n) = some ((tile.toNat : Int), x, y, n) := by
  have h44 : (Char.ofNat 44).toNat = 44 := rfl
  have hsp : ∀ v : Int, ∀ c ∈ showInt v, isSpace c = false := fun v c hc =>
    isSpace_eq_false_of_numChar c (by have := showInt_numChar v c hc; omega)
  have hco : ∀ v : Int, ∀ c ∈ showInt v, c.toNat ≠ 44 := fun v c hc => by
    have := showInt_numChar v c hc; omega
  have hall : ∀ c ∈ formatLine tile x y n, isSpace c = false := by
    intro c hc
    simp only [formatLine, List.mem_cons, List.mem_append] at hc
    rcases hc with h | h | h | h | h | h
    · rw [h]; exact htile
    · exact hsp x c h
    · rw [h]; exact isSpace_eq_false_of_numChar _ (by rw [h44]; omega)
    · exact hsp y c h
    · rw [h]; exact isSpace_eq_false_of_numChar _ (by rw [h44]; omega)
    · exact hsp n c h
  unfold parseLine
  rw [trimSpace_none _ hall]
  simp only [formatLine, if_neg (not_le.2 hascii)]
  rw [splitComma_field _ _ (hco x), splitComma_field _ _ (hco y), splitComma_none _ (hco n)]
  simp only [trimSpace_none _ (hsp x), trimSpace_none _ (hsp y), trimSpace_none _ (hsp n),
    ParseInt_showInt x hx.1 hx.2, ParseInt_showInt y hy.1 hy.2, ParseInt_showInt n hn.1 hn.2]

/-! ## Claims on the atlas index -/

/-- C1, as stated, fails.  For the line `#61,0,3` the loader stores the
rectangles of cells (61,0), (62,0), (0,1): the second one lies at pixel
(1984, 0), not at the pixel (0, 32) of cell ((61+1) mod 62, 0 + (61+1) div 62)
the claim names, because the column is reset by the test `x > 62`.  And for
the start row 67108864 the pixel row 32 * 67108864 does not fit the `int32`
field of the rectangle and is stored as -2147483648. -/
theorem C1_wrap_at_62_refuted :
    (loadTextureIndex ["#61,0,3".toList]).map (fun tbl => tbl 35) =
        some (some [⟨1952, 0, 32, 32⟩, ⟨1984, 0, 32, 32⟩, ⟨0, 32, 32, 32⟩]) ∧
      (⟨32 * ((61 + 1) % 62), 32 * (0 + (61 + 1) / 62), 32, 32⟩ : Rect) ≠ ⟨1984, 0, 32, 32⟩ ∧
      (loadTextureIndex ["#0,67108864,1".toList]).map (fun tbl => tbl 35) =
        some (some [⟨0, -2147483648, 32, 32⟩]) := by
  decide

/-- C1, amended: after any accepted lines `pre`, a descriptor line with tile
`t`, start column `0 ≤ x ≤ 62`, start row `0 ≤ y` and variant count `n` makes
`loadTextureIndex` store for `t` a list `rects`, which stays the entry of `t`
in the table of every accepted descriptor that continues with lines `post`
for other tiles.  The `i`-th rectangle of `rects` (`i < n`) is the 32 by 32
square of atlas cell (column `(x+i) mod 63`, row `y + (x+i) div 63`): its
pixel column is 32 times the cell column, its pixel row is 32 times the cell
row converted to `int32`, which is that product itself whenever it is below
2^31. -/
theorem C1_atlas_placement_period_63 (pre post : List (List Char)) (tbl0 : Table)
    (line : List Char) (t : Tile) (x y n : Int) (i : Nat)
    (hpre : loadTextureIndex pre = some tbl0)
    (hline : parseLine line = some (t, x, y, n))
    (hlast : ∀ l ∈ post, ∀ q, parseLine l = some q → q.1 ≠ t)
    (hx0 : 0 ≤ x) (hx : x ≤ 62) (hy : 0 ≤ y) (hi : (i : Int) < n) :
    ∃ rects r, (∃ tbl, loadTextureIndex (pre ++ [line]) = some tbl ∧ tbl t = some rects) ∧
      (∀ tbl, loadTextureIndex (pre ++ line :: post) = some tbl → tbl t = some rects) ∧
      rects[i]? = some r ∧
      r.X = 32 * ((x + i) % 63) ∧ r.Y = toInt32 (32 * (y + (x + i) / 63)) ∧
      r.W = 32 ∧ r.H = 32 ∧
      (32 * (y + (x + i) / 63) < 2147483648 → r.Y = 32 * (y + (x + i) / 63)) := by
  refine ⟨lineRects x y n, cellRect x y i,
    ⟨_, load_snoc pre tbl0 line t x y n hpre hline, by simp [Table.store]⟩,
    fun tbl hload => load_entry pre post line tbl t x y n hload hline hlast,
    ?_, ?_, rfl, rfl, rfl, ?_⟩
  · have hlt : i < n.toNat := by omega
    unfold lineRects
    rw [rectLoop_eq _ _ _ _ hx0 hx]
    simp [List.getElem?_range hlt, hlt]
  · simp only [cellRect, toInt32]
    omega
  · intro hfit
    simp only [cellRect, toInt32]
    omega

/-- Witness of C1 amended: the line `#61,0,3` on an empty table, followed by
a line for the tile `.`; variant 1 lands on cell (62, 0). -/
theorem C1_atlas_placement_period_63_witness :
    ∃ rects r,
      (∃ tbl, loadTextureIndex ([] ++ ["#61,0,3".toList]) = some tbl ∧ tbl 35 = some rects) ∧
      (∀ tbl, loadTextureIndex ([] ++ "#61,0,3".toList :: [".3,3,1".toList]) = some tbl →
        tbl 35 = some rects) ∧
      rects[1]? = some r ∧
      r.X = 32 * (((61 : Int) + (1 : Nat)) % 63) ∧
      r.Y = toInt32 (32 * ((0 : Int) + ((61 : Int) + (1 : Nat)) / 63)) ∧
      r.W = 32 ∧ r.H = 32 ∧
      (32 * ((0 : Int) + ((61 : Int) + (1 : Nat)) / 63) < 2147483648 →
        r.Y = 32 * ((0 : Int) + ((61 : Int) + (1 : Nat)) / 63)) :=
  C1_atlas_placement_period_63 [] [".3,3,1".toList] Table.empty "#61,0,3".toList 35 61 0 3 1
    rfl (by decide)
    (fun l hl q hq => by
      have hl1 : l = ".3,3,1".toList := by simpa using hl
      have hp : parseLine ".3,3,1".toList = some (46, 3, 3, 1) := by decide
      rw [hl1, hp] at hq
      cases hq
      decide)
    (by decide) (by decide) (by decide) (by decide)

/-- C2: after any accepted lines `pre`, a descriptor line that the loader
parses to tile `t`, cell `(x, y)` and variant count `n ≥ 0` makes
`loadTextureIndex` store for `t` a list of exactly `n` rectangles, each of
width 32 and height 32, whatever `x` and `y` are; the list stays the entry of
`t` in the table of every accepted descriptor that continues with lines
`post` for other tiles.  By `parseLine_formatLine` every line
`<tile><x>,<y>,<n>` with an ASCII tile character and 64-bit integers is
parsed this way. -/
theorem C2_atlas_line_size (pre post : List (List Char)) (tbl0 : Table)
    (line : List Char) (t : Tile) (x y n : Int)
    (hpre : loadTextureIndex pre = some tbl0)
    (hline : parseLine line = some (t, x, y, n)) (hn : 0 ≤ n)
    (hlast : ∀ l ∈ post, ∀ q, parseLine l = some q → q.1 ≠ t) :
    ∃ rects, (∃ tbl, loadTextureIndex (pre ++ [line]) = some tbl ∧ tbl t = some rects) ∧
      (∀ tbl, loadTextureIndex (pre ++ line :: post) = some tbl → tbl t = some rects) ∧
      (rects.length : Int) = n ∧ ∀ r ∈ rects, r.W = 32 ∧ r.H = 32 := by
  refine ⟨lineRects x y n,
    ⟨_, load_snoc pre tbl0 line t x y n hpre hline, by simp [Table.store]⟩,
    fun tbl hload => load_entry pre post line tbl t x y n hload hline hlast, ?_, ?_⟩
  · rw [lineRects_length]
    omega
  · exact rectLoop_size _ _ _ _ (by simp)

/-- Witness of C2: the line ` . 61 , 7,4 ` (with blanks around the fields)
after the line `#0,0,3` and before another line for `#`; its four variants
wrap to the next atlas row. -/
theorem C2_atlas_line_size_witness :
    ∃ rects,
      (∃ tbl, loadTextureIndex (["#0,0,3".toList] ++ [" . 61 , 7,4 ".toList]) = some tbl ∧
        tbl 46 = some rects) ∧
      (∀ tbl, loadTextureIndex
          (["#0,0,3".toList] ++ " . 61 , 7,4 ".toList :: ["#5,5,1".toList]) = some tbl →
        tbl 46 = some rects) ∧
      (rects.length : Int) = 4 ∧ ∀ r ∈ rects, r.W = 32 ∧ r.H = 32 :=
  C2_atlas_line_size ["#0,0,3".toList] ["#5,5,1".toList]
    (Table.store Table.empty 35 (lineRects 0 0 3)) " . 61 , 7,4 ".toList 46 61 7 4
    rfl (by decide) (by decide)
    (fun l hl q hq => by
      have hl1 : l = "#5,5,1".toList := by simpa using hl
      have hp : parseLine "#5,5,1".toList = some (35, 5, 5, 1) := by decide
      rw [hl1, hp] at hq
      cases hq
      decide)

/-- C3, as stated, fails: the descriptor made of the single line `#0,0,0` is
accepted, and the tile `#` is mapped to the empty list. -/
theorem C3_zero_count_gives_empty_list :
    (loadTextureIndex ["#0,0,0".toList]).map (fun tbl => tbl 35) = some (some []) := by
  decide

/-- C3, amended: in a descriptor that `loadTextureIndex` accepts, a tile is
mapped to the rectangles of its last line; for that line's variant count `n`
the list has `n` elements when `n ≥ 0` and none when `n < 0`, so it is
non-empty exactly when `n ≥ 1`. -/
theorem C3_atlas_entry_of_last_line (pre post : List (List Char)) (line : List Char)
    (tbl : Table) (t : Tile) (x y n : Int)
    (hload : loadTextureIndex (pre ++ line :: post) = some tbl)
    (hline : parseLine line = some (t, x, y, n))
    (hlast : ∀ l ∈ post, ∀ q, parseLine l = some q → q.1 ≠ t) :
    ∃ rects, tbl t = some rects ∧ rects = lineRects x y n ∧
      rects.length = n.toNat ∧ (rects ≠ [] ↔ 1 ≤ n) := by
  refine ⟨lineRects x y n, load_entry pre post line tbl t x y n hload hline hlast, rfl,
    lineRects_length x y n, ?_⟩
  rw [← List.length_pos, lineRects_length]
  omega

/-- Witness of C3 amended: the tile `#` defined twice, the last line with
two variants, followed by a line for another tile. -/
theorem C3_atlas_entry_of_last_line_witness :
    ∃ rects, Table.store (Table.store (Table.store Table.empty 35 (lineRects 0 0 0))
        35 (lineRects 5 1 2)) 46 (lineRects 3 3 1) 35 = some rects ∧
      rects = lineRects 5 1 2 ∧
      rects.length = (2 : Int).toNat ∧ (rects ≠ [] ↔ (1 : Int) ≤ 2) :=
  C3_atlas_entry_of_last_line ["#0,0,0".toList] [".3,3,1".toList] "#5,1,2".toList
    (Table.store (Table.store (Table.store Table.empty 35 (lineRects 0 0 0))
        35 (lineRects 5 1 2)) 46 (lineRects 3 3 1)) 35 5 1 2
    rfl (by decide)
    (fun l hl q hq => by
      have hl1 : l = ".3,3,1".toList := by simpa using hl
      have hp : parseLine ".3,3,1".toList = some (46, 3, 3, 1) := by decide
      rw [hl1, hp] at hq
      cases hq
      decide)

/-! ## Lemmas on the camera -/

theorem abs_ite (a : Int) : |a| = if 0 ≤ a then a else -a := by
  split <;> rename_i h
  · exact abs_of_nonneg h
  · exact abs_of_neg (by omega)

theorem wrap64_id (v : Int) (h : isInt v) : wrap64 v = v := by
  unfold isInt at h
  unfold wrap64
  omega

theorem cameraUpdate_cases_raw (c p : Pos) (hinit : ¬ (c.X = -1 ∧ c.Y = -1)) :
    (p.X > wrap64 (c.X + 5) ∧ cameraUpdate c p = ⟨wrap64 (c.X + 1), c.Y⟩) ∨
    (¬ p.X > wrap64 (c.X + 5) ∧ p.X < wrap64 (c.X - 5) ∧
      cameraUpdate c p = ⟨wrap64 (c.X - 1), c.Y⟩) ∨
    (¬ p.X > wrap64 (c.X + 5) ∧ ¬ p.X < wrap64 (c.X - 5) ∧ p.Y > wrap64 (c.Y + 5) ∧
      cameraUpdate c p = ⟨c.X, wrap64 (c.Y + 1)⟩) ∨
    (¬ p.X > wrap64 (c.X + 5) ∧ ¬ p.X < wrap64 (c.X - 5) ∧ ¬ p.Y > wrap64 (c.Y + 5) ∧
      p.Y < wrap64 (c.Y - 5) ∧ cameraUpdate c p = ⟨c.X, wrap64 (c.Y - 1)⟩) ∨
    (¬ p.X > wrap64 (c.X + 5) ∧ ¬ p.X < wrap64 (c.X - 5) ∧ ¬ p.Y > wrap64 (c.Y + 5) ∧
      ¬ p.Y < wrap64 (c.Y - 5) ∧ cameraUpdate c p = c) := by
  simp only [cameraUpdate, if_neg hinit]
  by_cases h1 : p.X > wrap64 (c.X + 5)
  · simp [h1]
  · by_cases h2 : p.X < wrap64 (c.X - 5)
    · simp [h1, h2]
    · by_cases h3 : p.Y > wrap64 (c.Y + 5)
      · simp [h1, h2, h3]
      · by_cases h4 : p.Y < wrap64 (c.Y - 5)
        · simp [h1, h2, h3, h4]
        · simp [h1, h2, h3, h4]

theorem cameraUpdate_cases (c p : Pos) (hinit : ¬ (c.X = -1 ∧ c.Y = -1))
    (hsx : isSafe c.X) (hsy : isSafe c.Y) :
    (p.X > c.X + 5 ∧ cameraUpdate c p = ⟨c.X + 1, c.Y⟩) ∨
    (¬ p.X > c.X + 5 ∧ p.X < c.X - 5 ∧ cameraUpdate c p = ⟨c.X - 1, c.Y⟩) ∨
    (¬ p.X > c.X + 5 ∧ ¬ p.X < c.X - 5 ∧ p.Y > c.Y + 5 ∧ cameraUpdate c p = ⟨c.X, c.Y + 1⟩) ∨
    (¬ p.X > c.X + 5 ∧ ¬ p.X < c.X - 5 ∧ ¬ p.Y > c.Y + 5 ∧ p.Y < c.Y - 5 ∧
      cameraUpdate c p = ⟨c.X, c.Y - 1⟩) ∨
    (¬ p.X > c.X + 5 ∧ ¬ p.X < c.X - 5 ∧ ¬ p.Y > c.Y + 5 ∧ ¬ p.Y < c.Y - 5 ∧
      cameraUpdate c p = c) := by
  unfold isSafe at hsx hsy
  have e1 : wrap64 (c.X + 5) = c.X + 5 := wrap64_id _ (by unfold isInt; omega)
  have e2 : wrap64 (c.X - 5) = c.X - 5 := wrap64_id _ (by unfold isInt; omega)
  have e3 : wrap64 (c.X + 1) = c.X + 1 := wrap64_id _ (by unfold isInt; omega)
  have e4 : wrap64 (c.X - 1) = c.X - 1 := wrap64_id _ (by unfold isInt; omega)
  have e5 : wrap64 (c.Y + 5) = c.Y + 5 := wrap64_id _ (by unfold isInt; omega)
  have e6 : wrap64 (c.Y - 5) = c.Y - 5 := wrap64_id _ (by unfold isInt; omega)
  have e7 : wrap64 (c.Y + 1) = c.Y + 1 := wrap64_id _ (by unfold isInt; omega)
  have e8 : wrap64 (c.Y - 1) = c.Y - 1 := wrap64_id _ (by unfold isInt; omega)
  have h := cameraUpdate_cases_raw c p hinit
  rw [e1, e2, e3, e4, e5, e6, e7, e8] at h
  exact h

theorem cameraUpdate_fixed (c p : Pos) (hinit : ¬ (c.X = -1 ∧ c.Y = -1))
    (hsx : isSafe c.X) (hsy : isSafe c.Y)
    (hx : |p.X - c.X| ≤ 5) (hy : |p.Y - c.Y| ≤ 5) : cameraUpdate c p = c := by
  simp only [abs_ite] at hx hy
  rcases cameraUpdate_cases c p hinit hsx hsy with ⟨h1, he⟩ | ⟨h1, h2, he⟩ |
    ⟨h1, h2, h3, he⟩ | ⟨h1, h2, h3, h4, he⟩ | ⟨h1, h2, h3, h4, he⟩
  · split_ifs at hx <;> omega
  · split_ifs at hx <;> omega
  · split_ifs at hy <;> omega
  · split_ifs at hy <;> omega
  · exact he

theorem cameraUpdate_self (p : Pos) (hsx : isSafe p.X) (hsy : isSafe p.Y) :
    cameraUpdate p p = p := by
  unfold isSafe at hsx hsy
  have e1 : wrap64 (p.X + 5) = p.X + 5 := wrap64_id _ (by unfold isInt; omega)
  have e2 : wrap64 (p.X - 5) = p.X - 5 := wrap64_id _ (by unfold isInt; omega)
  have e5 : wrap64 (p.Y + 5) = p.Y + 5 := wrap64_id _ (by unfold isInt; omega)
  have e6 : wrap64 (p.Y - 5) = p.Y - 5 := wrap64_id _ (by unfold isInt; omega)
  have h1 : ¬ p.X > p.X + 5 := by omega
  have h2 : ¬ p.X < p.X - 5 := by omega
  have h3 : ¬ p.Y > p.Y + 5 := by omega
  have h4 : ¬ p.Y < p.Y - 5 := by omega
  simp only [cameraUpdate]
  split <;> simp [e1, e2, e5, e6, h1, h2, h3, h4]

theorem cameraUpdate_uninit (p : Pos) (hsx : isSafe p.X) (hsy : isSafe p.Y) :
    cameraUpdate ⟨-1, -1⟩ p = p := by
  unfold isSafe at hsx hsy
  have e1 : wrap64 (p.X + 5) = p.X + 5 := wrap64_id _ (by unfold isInt; omega)
  have e2 : wrap64 (p.X - 5) = p.X - 5 := wrap64_id _ (by unfold isInt; omega)
  have e5 : wrap64 (p.Y + 5) = p.Y + 5 := wrap64_id _ (by unfold isInt; omega)
  have e6 : wrap64 (p.Y - 5) = p.Y - 5 := wrap64_id _ (by unfold isInt; omega)
  have h1 : ¬ p.X > p.X + 5 := by omega
  have h2 : ¬ p.X < p.X - 5 := by omega
  have h3 : ¬ p.Y > p.Y + 5 := by omega
  have h4 : ¬ p.Y < p.Y - 5 := by omega
  simp only [cameraUpdate, and_self, if_true]
  simp [e1, e2, e5, e6, h1, h2, h3, h4]

theorem cameraIter_fixed (p c : Pos) (n : Nat) (h : cameraUpdate c p = c) :
    cameraIter p n c = c := by
  induction n with
  | zero => rfl
  | succ n ih => simp only [cameraIter, h, ih]

/-- C4, as stated, fails at the end of the `int` range: for the initialised
centre (9223372036854775807, 0) and the player at (0, 0) the sum `centerX + 5`
wraps to a negative number, the first test holds, and `centerX++` wraps the
centre to (-9223372036854775808, 0), which is not one unit away. -/
theorem C4_step_wraps_at_int_limit :
    cameraUpdate ⟨9223372036854775807, 0⟩ ⟨0, 0⟩ = ⟨-9223372036854775808, 0⟩ ∧
    (-9223372036854775808 : Int) ≠ 9223372036854775807 + 1 ∧
    (-9223372036854775808 : Int) ≠ 9223372036854775807 - 1 := by
  decide

/-- C4, amended: for an initialised centre (not the marker (-1, -1)) with
64-bit `int` coordinates and any player position, the camera update
of `Draw` leaves the centre as it is or moves exactly one of its coordinates
by one increment or decrement of the wrapping `int` arithmetic; that step is
exactly one unit whenever the coordinates of the centre lie strictly between
the two ends of the `int` range; and `centerY` stays as it is whenever the
player's x lies outside the X deadzone. -/
theorem C4_camera_single_step (c p : Pos) (hinit : ¬ (c.X = -1 ∧ c.Y = -1))
    (hcx : isInt c.X) (hcy : isInt c.Y) :
    (cameraUpdate c p = c ∨
      ((cameraUpdate c p).Y = c.Y ∧
        ((cameraUpdate c p).X = wrap64 (c.X + 1) ∨ (cameraUpdate c p).X = wrap64 (c.X - 1))) ∨
      ((cameraUpdate c p).X = c.X ∧
        ((cameraUpdate c p).Y = wrap64 (c.Y + 1) ∨
          (cameraUpdate c p).Y = wrap64 (c.Y - 1)))) ∧
    (-9223372036854775808 < c.X → c.X < 9223372036854775807 →
      -9223372036854775808 < c.Y → c.Y < 9223372036854775807 →
      (cameraUpdate c p = c ∨
        ((cameraUpdate c p).Y = c.Y ∧
          ((cameraUpdate c p).X = c.X + 1 ∨ (cameraUpdate c p).X = c.X - 1)) ∨
        ((cameraUpdate c p).X = c.X ∧
          ((cameraUpdate c p).Y = c.Y + 1 ∨ (cameraUpdate c p).Y = c.Y - 1)))) ∧
    ((p.X > c.X + 5 ∨ p.X < c.X - 5) → (cameraUpdate c p).Y = c.Y) := by
  unfold isInt at hcx hcy
  rcases cameraUpdate_cases_raw c p hinit with ⟨h1, he⟩ | ⟨h1, h2, he⟩ |
    ⟨h1, h2, h3, he⟩ | ⟨h1, h2, h3, h4, he⟩ | ⟨h1, h2, h3, h4, he⟩ <;>
  · rw [he]
    refine ⟨by simp, fun a1 a2 a3 a4 => ?_, fun hout => ?_⟩
    · have e3 : wrap64 (c.X + 1) = c.X + 1 := wrap64_id _ (by unfold isInt; omega)
      have e4 : wrap64 (c.X - 1) = c.X - 1 := wrap64_id _ (by unfold isInt; omega)
      have e7 : wrap64 (c.Y + 1) = c.Y + 1 := wrap64_id _ (by unfold isInt; omega)
      have e8 : wrap64 (c.Y - 1) = c.Y - 1 := wrap64_id _ (by unfold isInt; omega)
      simp [e3, e4, e7, e8]
    · first
        | rfl
        | (exfalso
           unfold wrap64 at h1 h2
           omega)

/-- Witness of C4 amended: centre (10, 10), player (20, 30), outside both
deadzones; only the X axis moves. -/
theorem C4_camera_single_step_witness :
    (cameraUpdate ⟨10, 10⟩ ⟨20, 30⟩ = ⟨10, 10⟩ ∨
      ((cameraUpdate ⟨10, 10⟩ ⟨20, 30⟩).Y = 10 ∧
        ((cameraUpdate ⟨10, 10⟩ ⟨20, 30⟩).X = wrap64 (10 + 1) ∨
          (cameraUpdate ⟨10, 10⟩ ⟨20, 30⟩).X = wrap64 (10 - 1))) ∨
      ((cameraUpdate ⟨10, 10⟩ ⟨20, 30⟩).X = 10 ∧
        ((cameraUpdate ⟨10, 10⟩ ⟨20, 30⟩).Y = wrap64 (10 + 1) ∨
          (cameraUpdate ⟨10, 10⟩ ⟨20, 30⟩).Y = wrap64 (10 - 1)))) ∧
    (-9223372036854775808 < (10 : Int) → (10 : Int) < 9223372036854775807 →
      -9223372036854775808 < (10 : Int) → (10 : Int) < 9223372036854775807 →
      (cameraUpdate ⟨10, 10⟩ ⟨20, 30⟩ = ⟨10, 10⟩ ∨
        ((cameraUpdate ⟨10, 10⟩ ⟨20, 30⟩).Y = 10 ∧
          ((cameraUpdate ⟨10, 10⟩ ⟨20, 30⟩).X = 10 + 1 ∨
            (cameraUpdate ⟨10, 10⟩ ⟨20, 30⟩).X = 10 - 1)) ∨
        ((cameraUpdate ⟨10, 10⟩ ⟨20, 30⟩).X = 10 ∧
          ((cameraUpdate ⟨10, 10⟩ ⟨20, 30⟩).Y = 10 + 1 ∨
            (cameraUpdate ⟨10, 10⟩ ⟨20, 30⟩).Y = 10 - 1)))) ∧
    (((20 : Int) > 10 + 5 ∨ (20 : Int) < 10 - 5) → (cameraUpdate ⟨10, 10⟩ ⟨20, 30⟩).Y = 10) :=
  C4_camera_single_step ⟨10, 10⟩ ⟨20, 30⟩ (by decide) ⟨by decide, by decide⟩
    ⟨by decide, by decide⟩


/-- C5, as stated, fails near the end of the `int` range.  For the centre
(9223372036854775805, 0) with the player on it, `centerX + 5` wraps to a
negative number, the first test holds and the centre moves to
(9223372036854775806, 0), although the player is inside the deadzone.  And on
the first frame with the player at (9223372036854775807, 0) the centre is set
to the player's position and moved on at once, to (-9223372036854775808, 0). -/
theorem C5_deadzone_test_wraps :
    |(9223372036854775805 : Int) - 9223372036854775805| ≤ 5 ∧
    cameraUpdate ⟨9223372036854775805, 0⟩ ⟨9223372036854775805, 0⟩ =
      ⟨9223372036854775806, 0⟩ ∧
    cameraUpdate ⟨-1, -1⟩ ⟨9223372036854775807, 0⟩ = ⟨-9223372036854775808, 0⟩ := by
  decide

/-- C5, amended: when the coordinates of an initialised centre are at least
5 away from both ends of the 64-bit `int` range and the player is within 5 of
the centre on both axes, the camera update of `Draw` returns the centre
unchanged, and so does any number `n` of updates with the same player
position; and from the uninitialised centre (-1, -1) the first update yields
the player's position `q`, when its coordinates are at least 5 away from both
ends of the range, and every further update with the same `q` keeps it. -/
theorem C5_camera_idempotent (c p : Pos) (n : Nat) (hinit : ¬ (c.X = -1 ∧ c.Y = -1))
    (hsx : isSafe c.X) (hsy : isSafe c.Y)
    (hx : |p.X - c.X| ≤ 5) (hy : |p.Y - c.Y| ≤ 5) :
    cameraUpdate c p = c ∧ cameraIter p n c = c ∧
    ∀ q : Pos, isSafe q.X → isSafe q.Y →
      cameraUpdate ⟨-1, -1⟩ q = q ∧ ∀ m, cameraIter q (m + 1) ⟨-1, -1⟩ = q := by
  have h := cameraUpdate_fixed c p hinit hsx hsy hx hy
  refine ⟨h, cameraIter_fixed p c n h, fun q hqx hqy =>
    ⟨cameraUpdate_uninit q hqx hqy, fun m => ?_⟩⟩
  simp only [cameraIter, cameraUpdate_uninit q hqx hqy]
  exact cameraIter_fixed q q m (cameraUpdate_self q hqx hqy)

/-- Witness of C5 amended: centre (10, 10), player (15, 5) on the edge of
the deadzone, seven updates. -/
theorem C5_camera_idempotent_witness :
    cameraUpdate ⟨10, 10⟩ ⟨15, 5⟩ = ⟨10, 10⟩ ∧ cameraIter ⟨15, 5⟩ 7 ⟨10, 10⟩ = ⟨10, 10⟩ ∧
    ∀ q : Pos, isSafe q.X → isSafe q.Y →
      cameraUpdate ⟨-1, -1⟩ q = q ∧ ∀ m, cameraIter q (m + 1) ⟨-1, -1⟩ = q :=
  C5_camera_idempotent ⟨10, 10⟩ ⟨15, 5⟩ 7 (by decide) ⟨by decide, by decide⟩
    ⟨by decide, by decide⟩ (by decide) (by decide)

theorem justPressed_eq (ks prev : List Nat) (k : Nat) (hk : k < ks.length)
    (hp : k < prev.length) : justPressed ks prev k = some (edge ks prev k) := by
  simp only [justPressed, edge, isDown, List.getElem?_eq_getElem hk,
    List.getElem?_eq_getElem hp]
  by_cases h : ks[k] = 0
  · simp [h]
  · have e2 : (ks[k] != 0) = true := by simpa using h
    by_cases h2 : prev[k] = 0
    · simp [h, h2]
    · have e1 : (prev[k] == 0) = false := by simpa using h2
      have e3 : (prev[k] != 0) = true := by simpa using h2
      simp only [ne_eq, h, not_false_eq_true, if_true, e1, e2, e3]
      rfl

theorem pollKeys_eq (ks prev : List Nat) (keys : List (Nat × InputType)) (typ : InputType)
    (hk : ∀ kt ∈ keys, kt.1 < ks.length) (hp : ∀ kt ∈ keys, kt.1 < prev.length) :
    pollKeys ks prev keys typ =
      some (keys.foldl (fun t kt => if edge ks prev kt.1 then kt.2 else t) typ) := by
  induction keys generalizing typ with
  | nil => rfl
  | cons kt rest ih =>
    obtain ⟨k, t⟩ := kt
    simp only [pollKeys, List.foldl_cons]
    rw [justPressed_eq ks prev k (hk (k, t) (List.mem_cons_self _ _))
      (hp (k, t) (List.mem_cons_self _ _))]
    exact ih _ (fun q hq => hk q (List.mem_cons_of_mem _ hq))
      (fun q hq => hp q (List.mem_cons_of_mem _ hq))

theorem copyKeys_eq (ks prev : List Nat) (hlen : prev.length = ks.length) :
    copyKeys ks prev = some ks := by
  induction ks generalizing prev with
  | nil =>
    cases prev with
    | nil => rfl
    | cons p ps => simp at hlen
  | cons v vs ih =>
    cases prev with
    | nil => simp at hlen
    | cons p ps =>
      simp only [copyKeys]
      rw [ih ps (by simpa using hlen)]
      rfl

theorem foldKeys_result (ks prev : List Nat) (keys : List (Nat × InputType))
    (typ : InputType) :
    (keys.foldl (fun t kt => if edge ks prev kt.1 then kt.2 else t) typ = typ ∧
      ∀ kt ∈ keys, edge ks prev kt.1 = false) ∨
    ∃ kt ∈ keys, keys.foldl (fun t kt => if edge ks prev kt.1 then kt.2 else t) typ = kt.2 ∧
      edge ks prev kt.1 = true := by
  induction keys generalizing typ with
  | nil => left; simp
  | cons kt rest ih =>
    simp only [List.foldl_cons]
    rcases ih (if edge ks prev kt.1 then kt.2 else typ) with ⟨h1, h2⟩ | ⟨q, hq, h1, h2⟩
    · cases he : edge ks prev kt.1 with
      | false =>
        left
        rw [he] at h1
        refine ⟨by simpa using h1, ?_⟩
        intro q hq
        rcases List.mem_cons.1 hq with h | h
        · rw [h]; exact he
        · exact h2 q h
      | true =>
        right
        rw [he] at h1
        exact ⟨kt, List.mem_cons_self _ _, by simpa [he] using h1, he⟩
    · right
      exact ⟨q, List.mem_cons_of_mem _ hq, h1, h2⟩

theorem trackedKeys_typ_ne_none : ∀ kt ∈ trackedKeys, kt.2 ≠ InputType.None := by
  decide

theorem trackedKeys_typ_inj :
    ∀ a ∈ trackedKeys, ∀ b ∈ trackedKeys, a.2 = b.2 → a.1 = b.1 := by
  decide

theorem edge_iff (ks prev : List Nat) (k : Nat) :
    edge ks prev k = true ↔ isDown ks k = true ∧ isDown prev k = false := by
  simp [edge]

theorem handleKeys_spec (ks prev : List Nat) (hlen : prev.length = ks.length)
    (hsize : 82 < ks.length) :
    ∃ sent, handleKeys ks prev = some (sent, ks) ∧ sent.length ≤ 1 ∧
      (sent ≠ [] ↔ ∃ kt ∈ trackedKeys, isDown ks kt.1 = true ∧ isDown prev kt.1 = false) ∧
      (∀ e ∈ sent, e.LevelChannel = none ∧
        ∃ kt ∈ trackedKeys, e.Typ = kt.2 ∧ isDown ks kt.1 = true ∧ isDown prev kt.1 = false) ∧
      (∀ e ∈ sent, ∀ kt ∈ trackedKeys,
        isDown ks kt.1 = true → isDown prev kt.1 = true → e.Typ ≠ kt.2) := by
  have hk : ∀ kt ∈ trackedKeys, kt.1 < ks.length := by
    intro kt hkt
    simp only [trackedKeys, SCANCODE_UP, SCANCODE_DOWN, SCANCODE_LEFT, SCANCODE_RIGHT,
      SCANCODE_S, List.mem_cons, List.mem_singleton, List.not_mem_nil, or_false] at hkt
    rcases hkt with h | h | h | h | h <;> subst h <;> simp only <;> omega
  have hp : ∀ kt ∈ trackedKeys, kt.1 < prev.length := fun kt hkt => hlen ▸ hk kt hkt
  simp only [handleKeys, pollKeys_eq ks prev trackedKeys _ hk hp, copyKeys_eq ks prev hlen]
  refine ⟨_, rfl, ?_⟩
  rcases foldKeys_result ks prev trackedKeys InputType.None with ⟨h1, h2⟩ | ⟨q, hq, h1, h2⟩
  · rw [h1]
    refine ⟨by simp, ?_, by simp, by simp⟩
    simp only [ne_eq, not_true_eq_false, if_false, false_iff, not_exists, not_and]
    intro kt hkt hdown
    have := h2 kt hkt
    simp only [edge, hdown, Bool.true_and, Bool.not_eq_false'] at this
    simp [this]
  · rw [h1, if_pos (trackedKeys_typ_ne_none q hq)]
    have hq2 := (edge_iff ks prev q.1).1 h2
    refine ⟨by simp, ?_, ?_, ?_⟩
    · simp only [ne_eq, List.cons_ne_nil, not_false_eq_true, true_iff]
      exact ⟨q, hq, hq2⟩
    · intro e he
      simp only [List.mem_singleton] at he
      subst he
      exact ⟨rfl, q, hq, rfl, hq2⟩
    · intro e he kt hkt hd hpd heq
      simp only [List.mem_singleton] at he
      subst he
      have := trackedKeys_typ_inj q hq kt hkt heq
      rw [this] at hq2
      rw [hq2.2] at hpd
      exact Bool.false_ne_true hpd

theorem handleKeys_total (ks prev : List Nat) (hlen : prev.length = ks.length)
    (hsize : 82 < ks.length) :
    ∃ sent, handleKeys ks prev = some (sent, ks) ∧ sent.length ≤ 1 := by
  obtain ⟨sent, h1, h2, _⟩ := handleKeys_spec ks prev hlen hsize
  exact ⟨sent, h1, h2⟩

/-! ## Claim on edge-triggered input -/

/-- C6: for keyboard samples of equal length that cover the tracked
scancodes, the keyboard block of one cycle of `Run` for a focused client
sends at most one input; it sends one exactly when some tracked key is
pressed in the current sample and released in the previous one; the type of
the input sent is that of a tracked key that made this transition, and is
never that of a tracked key pressed in both samples; and afterwards the
previous sample equals the current sample. -/
theorem C6_edge_triggered_input (ks prev : List Nat) (hlen : prev.length = ks.length)
    (hsize : 82 < ks.length) :
    ∃ sent, handleKeys ks prev = some (sent, ks) ∧ sent.length ≤ 1 ∧
      (sent ≠ [] ↔ ∃ kt ∈ trackedKeys, isDown ks kt.1 = true ∧ isDown prev kt.1 = false) ∧
      (∀ e ∈ sent, e.LevelChannel = none ∧
        ∃ kt ∈ trackedKeys, e.Typ = kt.2 ∧ isDown ks kt.1 = true ∧ isDown prev kt.1 = false) ∧
      (∀ e ∈ sent, ∀ kt ∈ trackedKeys,
        isDown ks kt.1 = true → isDown prev kt.1 = true → e.Typ ≠ kt.2) :=
  handleKeys_spec ks prev hlen hsize

/-- Witness of C6: 83 scancodes, Up held in both samples, Left newly
pressed. -/
theorem C6_edge_triggered_input_witness :
    ∃ sent, handleKeys (((List.replicate 83 0).set 82 1).set 80 1)
        ((List.replicate 83 0).set 82 1) =
        some (sent, ((List.replicate 83 0).set 82 1).set 80 1) ∧ sent.length ≤ 1 ∧
      (sent ≠ [] ↔ ∃ kt ∈ trackedKeys,
        isDown (((List.replicate 83 0).set 82 1).set 80 1) kt.1 = true ∧
        isDown ((List.replicate 83 0).set 82 1) kt.1 = false) ∧
      (∀ e ∈ sent, e.LevelChannel = none ∧
        ∃ kt ∈ trackedKeys, e.Typ = kt.2 ∧
          isDown (((List.replicate 83 0).set 82 1).set 80 1) kt.1 = true ∧
          isDown ((List.replicate 83 0).set 82 1) kt.1 = false) ∧
      (∀ e ∈ sent, ∀ kt ∈ trackedKeys,
        isDown (((List.replicate 83 0).set 82 1).set 80 1) kt.1 = true →
        isDown ((List.replicate 83 0).set 82 1) kt.1 = true → e.Typ ≠ kt.2) :=
  C6_edge_triggered_input (((List.replicate 83 0).set 82 1).set 80 1)
    ((List.replicate 83 0).set 82 1) (by decide) (by decide)

/-! ## Lemmas on the tile scan -/

theorem rngAfter_append (R : Rand) (tbl : Table) (blank : Tile) (a b : List Tile)
    (s : R.State) :
    rngAfter R tbl blank (a ++ b) s = rngAfter R tbl blank b (rngAfter R tbl blank a s) := by
  induction a generalizing s with
  | nil => rfl
  | cons t rest ih =>
    simp only [List.cons_append, rngAfter]
    split <;> exact ih _

theorem rngAfter_nonBlank (R : Rand) (tbl : Table) (blank : Tile) (a : List Tile)
    (s : R.State) :
    rngAfter R tbl blank (nonBlank blank a) s = rngAfter R tbl blank a s := by
  induction a generalizing s with
  | nil => rfl
  | cons t rest ih =>
    by_cases h : t ≠ blank
    · simp only [nonBlank, List.filter_cons, h, decide_True, if_true, rngAfter, ne_eq,
        not_false_eq_true]
      exact ih _
    · simp only [nonBlank, List.filter_cons, h, decide_False, rngAfter, if_false]
      exact ih _

theorem drawRow_spec (R : Rand) (tbl : Table) (blank : Tile) (debug : Pos → Bool)
    (offsetX offsetY : Int) (y : Nat) (row : List Tile) (x : Nat) (s : R.State)
    (acc : List TileDraw) (hne : ∀ tile ∈ row, tile ≠ blank → tbl.read tile ≠ []) :
    ∃ new, drawRow R tbl blank debug offsetX offsetY y row x s acc =
        some (rngAfter R tbl blank row s, acc ++ new) ∧
      new.map (fun t => (t.x, t.y, t.variant)) = rowPicks R tbl blank y row x s := by
  induction row generalizing x s acc with
  | nil => exact ⟨[], by simp [drawRow, rngAfter], by simp [rowPicks]⟩
  | cons tile rest ih =>
    have hrest : ∀ t ∈ rest, t ≠ blank → tbl.read t ≠ [] :=
      fun t ht => hne t (List.mem_cons_of_mem _ ht)
    by_cases hb : tile ≠ blank
    · have hlen : 0 < (tbl.read tile).length :=
        List.length_pos.2 (hne tile (List.mem_cons_self _ _) hb)
      have hlt := R.intn_lt s _ hlen
      simp only [drawRow, rngAfter, rowPicks, if_pos hb, if_neg (Nat.pos_iff_ne_zero.1 hlen),
        List.getElem?_eq_getElem hlt]
      obtain ⟨new, h1, h2⟩ := ih (x + 1) (R.intn s (tbl.read tile).length).2
        (acc ++ [⟨x, y, (R.intn s (tbl.read tile).length).1,
          (tbl.read tile)[(R.intn s (tbl.read tile).length).1],
          ⟨toInt32 (toInt32 ((x : Int) * 32) + offsetX),
            toInt32 (toInt32 ((y : Int) * 32) + offsetY), 32, 32⟩,
          debug ⟨(x : Int), (y : Int)⟩⟩]) hrest
      refine ⟨(⟨x, y, (R.intn s (tbl.read tile).length).1,
          (tbl.read tile)[(R.intn s (tbl.read tile).length).1],
          ⟨toInt32 (toInt32 ((x : Int) * 32) + offsetX),
            toInt32 (toInt32 ((y : Int) * 32) + offsetY), 32, 32⟩,
          debug ⟨(x : Int), (y : Int)⟩⟩ : TileDraw) :: new, ?_, ?_⟩
      · rw [h1]
        simp
      · simp [h2]
    · simp only [drawRow, rngAfter, rowPicks, if_neg hb]
      exact ih (x + 1) s acc hrest

theorem drawRows_spec (R : Rand) (tbl : Table) (blank : Tile) (debug : Pos → Bool)
    (offsetX offsetY : Int) (rows : List (List Tile)) (y : Nat) (s : R.State)
    (acc : List TileDraw)
    (hne : ∀ row ∈ rows, ∀ tile ∈ row, tile ≠ blank → tbl.read tile ≠ []) :
    ∃ new, drawRows R tbl blank debug offsetX offsetY rows y s acc =
        some (rngAfter R tbl blank rows.flatten s, acc ++ new) ∧
      new.map (fun t => (t.x, t.y, t.variant)) = mapPicks R tbl blank rows y s := by
  induction rows generalizing y s acc with
  | nil => exact ⟨[], by simp [drawRows, rngAfter], by simp [mapPicks]⟩
  | cons row rows ih =>
    obtain ⟨n1, h1, h2⟩ := drawRow_spec R tbl blank debug offsetX offsetY y row 0 s acc
      (hne row (List.mem_cons_self _ _))
    obtain ⟨n2, h3, h4⟩ := ih (y + 1) (rngAfter R tbl blank row s) (acc ++ n1)
      (fun r hr => hne r (List.mem_cons_of_mem _ hr))
    refine ⟨n1 ++ n2, ?_, ?_⟩
    · simp only [drawRows, h1, h3, List.flatten_cons, rngAfter_append, List.append_assoc]
    · simp [mapPicks, h2, h4]

theorem Draw_spec (R : Rand) (blank : Tile) (ui : UI R) (level : Level)
    (hne : ∀ row ∈ level.Map, ∀ tile ∈ row, tile ≠ blank → ui.textureIndex.read tile ≠ []) :
    ∃ u f, Draw R blank ui level = some (u, f) ∧
      f.picks = mapPicks R ui.textureIndex blank level.Map 0 (R.seed 1) ∧
      u.textureIndex = ui.textureIndex ∧
      (⟨u.centerX, u.centerY⟩ : Pos) = cameraUpdate ⟨ui.centerX, ui.centerY⟩ level.Player := by
  obtain ⟨new, h1, h2⟩ := drawRows_spec R ui.textureIndex blank level.Debug
    (toInt32 (Int.tdiv ui.winWidth 2 -
      (cameraUpdate ⟨ui.centerX, ui.centerY⟩ level.Player).X * 32))
    (toInt32 (Int.tdiv ui.winHeight 2 -
      (cameraUpdate ⟨ui.centerX, ui.centerY⟩ level.Player).Y * 32))
    level.Map 0 (R.seed 1) [] hne
  simp only [Draw, h1, List.nil_append]
  exact ⟨_, _, rfl, h2, rfl, rfl⟩

theorem rowPicks_append (R : Rand) (tbl : Table) (blank : Tile) (y : Nat) (a b : List Tile)
    (x : Nat) (s : R.State) :
    rowPicks R tbl blank y (a ++ b) x s =
      rowPicks R tbl blank y a x s ++
        rowPicks R tbl blank y b (x + a.length) (rngAfter R tbl blank a s) := by
  induction a generalizing x s with
  | nil => simp [rowPicks, rngAfter]
  | cons t rest ih =>
    have e : x + (rest.length + 1) = x + 1 + rest.length := by omega
    by_cases hb : t ≠ blank
    · simp only [List.cons_append, rowPicks, rngAfter, List.length_cons, if_pos hb,
        List.append_eq, ih, e]
    · simp only [List.cons_append, rowPicks, rngAfter, List.length_cons, if_neg hb,
        List.append_eq, ih, e]

theorem mapPicks_append (R : Rand) (tbl : Table) (blank : Tile) (a b : List (List Tile))
    (y : Nat) (s : R.State) :
    mapPicks R tbl blank (a ++ b) y s =
      mapPicks R tbl blank a y s ++
        mapPicks R tbl blank b (y + a.length) (rngAfter R tbl blank a.flatten s) := by
  induction a generalizing y s with
  | nil => simp [mapPicks, rngAfter]
  | cons r rest ih =>
    have e : y + (rest.length + 1) = y + 1 + rest.length := by omega
    simp only [List.cons_append, mapPicks, List.length_cons, List.flatten_cons,
      rngAfter_append, List.append_eq, ih, List.append_assoc, e]

theorem rowPicks_cell (R : Rand) (tbl : Table) (blank : Tile) (y : Nat) (row : List Tile)
    (x : Nat) (s : R.State) :
    ∀ p ∈ rowPicks R tbl blank y row x s, p.2.1 = y ∧ x ≤ p.1 ∧ p.1 < x + row.length := by
  induction row generalizing x s with
  | nil => simp [rowPicks]
  | cons t rest ih =>
    intro p hp
    simp only [rowPicks] at hp
    split at hp
    · rcases List.mem_cons.1 hp with h | h
      · subst h
        simp
      · have := ih _ _ p h
        simp only [List.length_cons]
        omega
    · have := ih _ _ p hp
      simp only [List.length_cons]
      omega

theorem mapPicks_cell (R : Rand) (tbl : Table) (blank : Tile) (rows : List (List Tile))
    (y : Nat) (s : R.State) :
    ∀ p ∈ mapPicks R tbl blank rows y s, y ≤ p.2.1 ∧ p.2.1 < y + rows.length := by
  induction rows generalizing y s with
  | nil => simp [mapPicks]
  | cons r rest ih =>
    intro p hp
    simp only [mapPicks] at hp
    rcases List.mem_append.1 hp with h | h
    · have := rowPicks_cell R tbl blank y r 0 s p h
      simp only [List.length_cons]
      omega
    · have := ih _ _ p h
      simp only [List.length_cons]
      omega

theorem variantAt_picks (f : Frame) (x y : Nat) : f.variantAt x y = pickAt f.picks x y := by
  simp only [Frame.variantAt, pickAt, Frame.picks, List.find?_map, Option.map_map]
  rfl

theorem pickAt_skip (a b : List (Nat × Nat × Nat)) (x y : Nat)
    (h : ∀ p ∈ a, ¬ (p.1 = x ∧ p.2.1 = y)) : pickAt (a ++ b) x y = pickAt b x y := by
  simp only [pickAt, List.find?_append]
  have : a.find? (fun p => p.1 == x && p.2.1 == y) = none := by
    rw [List.find?_eq_none]
    intro p hp
    have := h p hp
    simpa using this
  rw [this]
  simp

theorem mapPicks_at (R : Rand) (tbl : Table) (blank : Tile) (above below : List (List Tile))
    (left right : List Tile) (t : Tile) (ht : t ≠ blank) (s : R.State) :
    pickAt (mapPicks R tbl blank (above ++ (left ++ t :: right) :: below) 0 s)
        left.length above.length =
      some (R.intn (rngAfter R tbl blank (nonBlank blank (above.flatten ++ left)) s)
        (tbl.read t).length).1 := by
  rw [mapPicks_append, pickAt_skip]
  · simp only [mapPicks, rowPicks_append, List.append_assoc]
    rw [pickAt_skip]
    · simp only [rowPicks, if_pos ht, rngAfter_nonBlank, rngAfter_append, zero_add]
      simp [pickAt]
    · intro p hp
      have := rowPicks_cell R tbl blank _ left 0 _ p hp
      omega
  · intro p hp
    have := mapPicks_cell R tbl blank above 0 s p hp
    omega

theorem DrawN_spec (R : Rand) (blank : Tile) (level : Level) (n : Nat) (ui : UI R)
    (hne : ∀ row ∈ level.Map, ∀ tile ∈ row, tile ≠ blank → ui.textureIndex.read tile ≠ []) :
    ∃ u fs, DrawN R blank level n ui = some (u, fs) ∧ fs.length = n ∧
      ∀ f ∈ fs, f.picks = mapPicks R ui.textureIndex blank level.Map 0 (R.seed 1) := by
  induction n generalizing ui with
  | zero => exact ⟨ui, [], rfl, rfl, by simp⟩
  | succ n ih =>
    obtain ⟨u, f, h1, h2, h3, _⟩ := Draw_spec R blank ui level hne
    obtain ⟨u2, fs, h4, h5, h6⟩ := ih u (by rw [h3]; exact hne)
    refine ⟨u2, f :: fs, by simp [DrawN, h1, h4], by simp [h5], ?_⟩
    intro g hg
    rcases List.mem_cons.1 hg with h | h
    · rw [h, h2]
    · rw [h6 g h, h3]

/-! ## Claims on variant selection -/

/-- C7: for every map and every atlas table with a non-empty entry for each
tile of the map that is not blank, two calls of `Draw` that start from any
two client states with that table (whatever their generator states and
camera centres) both return and pick the same variant index for every cell,
because the generator is seeded with 1 before the scan; and `n` repeated
draws of the same level all pick these indices. -/
theorem C7_frame_stable_variants (R : Rand) (blank : Tile) (ui1 ui2 : UI R) (level : Level)
    (n : Nat) (htbl : ui2.textureIndex = ui1.textureIndex)
    (hne : ∀ row ∈ level.Map, ∀ tile ∈ row, tile ≠ blank → ui1.textureIndex.read tile ≠ []) :
    ∃ u1 f1 u2 f2, Draw R blank ui1 level = some (u1, f1) ∧
      Draw R blank ui2 level = some (u2, f2) ∧ f1.picks = f2.picks ∧
      ∃ u3 fs, DrawN R blank level n ui1 = some (u3, fs) ∧ fs.length = n ∧
        ∀ f ∈ fs, f.picks = f1.picks := by
  obtain ⟨u1, f1, h1, h2, _, _⟩ := Draw_spec R blank ui1 level hne
  obtain ⟨u2, f2, h3, h4, _, _⟩ := Draw_spec R blank ui2 level (by rw [htbl]; exact hne)
  obtain ⟨u3, fs, h5, h6, h7⟩ := DrawN_spec R blank level n ui1 hne
  refine ⟨u1, f1, u2, f2, h1, h3, by rw [h2, h4, htbl], u3, fs, h5, h6, ?_⟩
  intro f hf
  rw [h7 f hf, h2]

/-- Witness of C7: a 2 by 3 map with blanks, a table with three variants of
`#`, a fresh client and one with another centre and generator state, five
repeated draws. -/
theorem C7_frame_stable_variants_witness :
    ∃ u1 f1 u2 f2,
      Draw lcg 0 (NewUI lcg (Table.store Table.empty 35 (lineRects 0 0 3)) [] 0)
        ⟨[[35, 0, 35], [35, 35, 0]], ⟨1, 1⟩, fun _ => false⟩ = some (u1, f1) ∧
      Draw lcg 0
        (⟨1280, 720, Table.store Table.empty 35 (lineRects 0 0 3), [], 3, 4, lcg.seed 7, 0⟩ :
          UI lcg)
        ⟨[[35, 0, 35], [35, 35, 0]], ⟨1, 1⟩, fun _ => false⟩ = some (u2, f2) ∧
      f1.picks = f2.picks ∧
      ∃ u3 fs, DrawN lcg 0 ⟨[[35, 0, 35], [35, 35, 0]], ⟨1, 1⟩, fun _ => false⟩ 5
          (NewUI lcg (Table.store Table.empty 35 (lineRects 0 0 3)) [] 0) = some (u3, fs) ∧
        fs.length = 5 ∧ ∀ f ∈ fs, f.picks = f1.picks :=
  C7_frame_stable_variants lcg 0 (NewUI lcg (Table.store Table.empty 35 (lineRects 0 0 3)) [] 0)
    ⟨1280, 720, Table.store Table.empty 35 (lineRects 0 0 3), [], 3, 4, lcg.seed 7, 0⟩
    ⟨[[35, 0, 35], [35, 35, 0]], ⟨1, 1⟩, fun _ => false⟩ 5 rfl (by decide)

/-- C8, as stated, fails.  With the generator `lcg`, blank tile 0 and three
variants of `#`, the maps `[[blank, #]]` and `[[#, #]]` have the same
dimensions and the same tile `#` at cell (1, 0), yet `Draw` picks variant 2
there in the first map and variant 1 in the second: in the first map the
cell gets the first number after the reseed, in the second map the second. -/
theorem C8_variant_depends_on_preceding_tiles :
    (Draw lcg 0 (NewUI lcg (Table.store Table.empty 35 (lineRects 0 0 3)) [] 0)
        ⟨[[0, 35]], ⟨0, 0⟩, fun _ => false⟩).map (fun r => r.2.variantAt 1 0) =
      some (some 2) ∧
    (Draw lcg 0 (NewUI lcg (Table.store Table.empty 35 (lineRects 0 0 3)) [] 0)
        ⟨[[35, 35]], ⟨0, 0⟩, fun _ => false⟩).map (fun r => r.2.variantAt 1 0) =
      some (some 1) := by
  decide

/-- C8, amended: the variant index of a cell is keyed by the tiles that
precede it in the scan.  Take two maps that hold the same non-blank tile `t`
at cell `(x, y)` (`x` the length of `left`, `y` the length of `above`) and
whose tiles that are not blank and come before `(x, y)` in row-major order
form the same sequence; with the same atlas table, non-empty for every
non-blank tile of both maps, `Draw` returns on both and selects the same
variant index `v` for `(x, y)`, whatever the cells after `(x, y)` contain:
`v` is the number `Intn` returns in the generator state reached from seed 1
by one call for each non-blank tile before the cell. -/
theorem C8_variant_keyed_by_scan_prefix (R : Rand) (blank : Tile) (ui1 ui2 : UI R)
    (level1 level2 : Level) (above1 below1 above2 below2 : List (List Tile))
    (left1 right1 left2 right2 : List Tile) (t : Tile)
    (hm1 : level1.Map = above1 ++ (left1 ++ t :: right1) :: below1)
    (hm2 : level2.Map = above2 ++ (left2 ++ t :: right2) :: below2)
    (hy : above2.length = above1.length) (hx : left2.length = left1.length)
    (ht : t ≠ blank) (htbl : ui2.textureIndex = ui1.textureIndex)
    (hpre : nonBlank blank (above2.flatten ++ left2) =
      nonBlank blank (above1.flatten ++ left1))
    (hne1 : ∀ row ∈ level1.Map, ∀ tile ∈ row, tile ≠ blank → ui1.textureIndex.read tile ≠ [])
    (hne2 : ∀ row ∈ level2.Map, ∀ tile ∈ row, tile ≠ blank → ui1.textureIndex.read tile ≠ []) :
    ∃ u1 f1 u2 f2 v, Draw R blank ui1 level1 = some (u1, f1) ∧
      Draw R blank ui2 level2 = some (u2, f2) ∧
      f1.variantAt left1.length above1.length = some v ∧
      f2.variantAt left1.length above1.length = some v ∧
      v = (R.intn (rngAfter R ui1.textureIndex blank
            (nonBlank blank (above1.flatten ++ left1)) (R.seed 1))
          (ui1.textureIndex.read t).length).1 := by
  obtain ⟨u1, f1, h1, h2, _, _⟩ := Draw_spec R blank ui1 level1 hne1
  obtain ⟨u2, f2, h3, h4, _, _⟩ := Draw_spec R blank ui2 level2 (by rw [htbl]; exact hne2)
  refine ⟨u1, f1, u2, f2, _, h1, h3, ?_, ?_, rfl⟩
  · rw [variantAt_picks, h2, hm1]
    exact mapPicks_at R _ blank above1 below1 left1 right1 t ht _
  · rw [variantAt_picks, h4, hm2, htbl, ← hx, ← hy, ← hpre]
    exact mapPicks_at R _ blank above2 below2 left2 right2 t ht _

/-- Witness of C8 amended: cell (1, 1) of the maps `[[#, _], [_, #, #]]` and
`[[_, #], [_, #, _], [#]]`; one non-blank tile precedes the cell in both. -/
theorem C8_variant_keyed_by_scan_prefix_witness :
    ∃ u1 f1 u2 f2 v,
      Draw lcg 0 (NewUI lcg (Table.store Table.empty 35 (lineRects 0 0 3)) [] 0)
        ⟨[[35, 0], [0, 35, 35]], ⟨0, 0⟩, fun _ => false⟩ = some (u1, f1) ∧
      Draw lcg 0 (NewUI lcg (Table.store Table.empty 35 (lineRects 0 0 3)) [] 0)
        ⟨[[0, 35], [0, 35, 0], [35]], ⟨0, 0⟩, fun _ => false⟩ = some (u2, f2) ∧
      f1.variantAt [(0 : Tile)].length [[(35 : Tile), 0]].length = some v ∧
      f2.variantAt [(0 : Tile)].length [[(35 : Tile), 0]].length = some v ∧
      v = (lcg.intn (rngAfter lcg (Table.store Table.empty 35 (lineRects 0 0 3)) 0
            (nonBlank 0 ([[(35 : Tile), 0]].flatten ++ [0])) (lcg.seed 1))
          ((Table.store Table.empty 35 (lineRects 0 0 3)).read 35).length).1 :=
  C8_variant_keyed_by_scan_prefix lcg 0
    (NewUI lcg (Table.store Table.empty 35 (lineRects 0 0 3)) [] 0)
    (NewUI lcg (Table.store Table.empty 35 (lineRects 0 0 3)) [] 0)
    ⟨[[35, 0], [0, 35, 35]], ⟨0, 0⟩, fun _ => false⟩
    ⟨[[0, 35], [0, 35, 0], [35]], ⟨0, 0⟩, fun _ => false⟩
    [[35, 0]] [] [[0, 35]] [[35]] [0] [35] [0] [0] 35
    rfl rfl rfl rfl (by decide) rfl (by decide) (by decide) (by decide)

/-! ## Lemmas on the frame loop -/

theorem eventInputs_mem (ch : Nat) (evs : List Event) :
    (Event.quit ∈ evs → (⟨InputType.QuitGame, none⟩ : Input) ∈ eventInputs ch evs) ∧
    (Event.windowClose ∈ evs →
      (⟨InputType.CloseWindow, some ch⟩ : Input) ∈ eventInputs ch evs) := by
  induction evs with
  | nil => simp
  | cons e es ih =>
    cases e <;> simp [eventInputs, ih.1, ih.2] <;> tauto

theorem Draw_keeps (R : Rand) (blank : Tile) (ui u : UI R) (level : Level) (f : Frame)
    (h : Draw R blank ui level = some (u, f)) :
    u.textureIndex = ui.textureIndex ∧ u.prevKeyboardState = ui.prevKeyboardState ∧
      u.levelChan = ui.levelChan := by
  simp only [Draw] at h
  split at h
  · exact absurd h (by simp)
  · simp only [Option.some.injEq, Prod.mk.injEq] at h
    rw [← h.1]
    exact ⟨rfl, rfl, rfl⟩

theorem pollLevel_total (R : Rand) (blank : Tile) (ui : UI R) (recv : Recv)
    (hne : ∀ level, recv = Recv.value level →
      ∀ row ∈ level.Map, ∀ tile ∈ row, tile ≠ blank → ui.textureIndex.read tile ≠ []) :
    ∃ u1 frame, pollLevel R blank ui recv = some (u1, frame) ∧
      (frame.isSome = true ↔ ∃ level, recv = Recv.value level) ∧
      u1.prevKeyboardState = ui.prevKeyboardState ∧ u1.levelChan = ui.levelChan ∧
      u1.textureIndex = ui.textureIndex := by
  cases recv with
  | empty => exact ⟨ui, none, rfl, by simp, rfl, rfl, rfl⟩
  | closed => exact ⟨ui, none, rfl, by simp, rfl, rfl, rfl⟩
  | value level =>
    obtain ⟨u1, f, h1, _, _, _⟩ := Draw_spec R blank ui level (hne level rfl)
    have hk := Draw_keeps R blank ui u1 level f h1
    exact ⟨u1, some f, by simp only [pollLevel, h1], by simp, hk.2.1, hk.2.2, hk.1⟩

theorem runCycle_total (R : Rand) (blank : Tile) (ui : UI R) (c : Cycle)
    (hlen : c.keyboardState.length = ui.prevKeyboardState.length)
    (hsize : 82 < c.keyboardState.length)
    (hne : ∀ level, c.recv = Recv.value level →
      ∀ row ∈ level.Map, ∀ tile ∈ row, tile ≠ blank → ui.textureIndex.read tile ≠ []) :
    ∃ u keys frame, runCycle R blank ui c =
        some (u, ⟨eventInputs ui.levelChan c.events ++ keys, frame⟩) ∧
      keys.length ≤ 1 ∧ (frame.isSome = true ↔ ∃ level, c.recv = Recv.value level) ∧
      u.prevKeyboardState.length = ui.prevKeyboardState.length ∧
      u.levelChan = ui.levelChan ∧ u.textureIndex = ui.textureIndex := by
  obtain ⟨u1, frame, h1, h2, h3, h4, h5⟩ := pollLevel_total R blank ui c.recv hne
  obtain ⟨sent, h6, h7⟩ := handleKeys_total c.keyboardState u1.prevKeyboardState
    (by rw [h3, hlen]) hsize
  cases hf : c.focus with
  | false =>
    refine ⟨u1, [], frame, ?_, by simp, h2, by rw [h3], h4, h5⟩
    simp [runCycle, h1, hf]
  | true =>
    refine ⟨⟨u1.winWidth, u1.winHeight, u1.textureIndex, c.keyboardState, u1.centerX,
      u1.centerY, u1.r, u1.levelChan⟩, sent, frame, ?_, h7, h2, hlen, h4, h5⟩
    simp [runCycle, h1, hf, h6]

theorem Run_total (R : Rand) (blank : Tile) (cs : List Cycle) (ui : UI R)
    (hcyc : ∀ d ∈ cs, d.keyboardState.length = ui.prevKeyboardState.length ∧
      82 < d.keyboardState.length ∧
      ∀ level, d.recv = Recv.value level →
        ∀ row ∈ level.Map, ∀ tile ∈ row, tile ≠ blank → ui.textureIndex.read tile ≠ []) :
    ∃ u outs, Run R blank cs ui = some (u, outs) ∧
      List.Forall₂ (fun d q => (q.frame.isSome = true ↔ ∃ level, d.recv = Recv.value level) ∧
        ∃ keys, q.sent = eventInputs ui.levelChan d.events ++ keys ∧ keys.length ≤ 1)
        cs outs := by
  induction cs generalizing ui with
  | nil => exact ⟨ui, [], rfl, List.Forall₂.nil⟩
  | cons c cs ih =>
    have hc := hcyc c (List.mem_cons_self _ _)
    obtain ⟨u, keys, frame, h1, h2, h3, h4, h5, h6⟩ :=
      runCycle_total R blank ui c hc.1 hc.2.1 hc.2.2
    obtain ⟨u2, outs, h7, h8⟩ := ih u (fun d hd => by
      rw [h4, h6]
      exact hcyc d (List.mem_cons_of_mem _ hd))
    refine ⟨u2, ⟨eventInputs ui.levelChan c.events ++ keys, frame⟩ :: outs,
      by simp only [Run, h1, h7], ?_⟩
    rw [h5] at h8
    exact List.Forall₂.cons ⟨h3, keys, rfl, h2⟩ h8

/-! ## Claim on the closing state -/

/-- C9, as stated, fails: the loop of `Run` has no exit.  First run: the
client gets a window-close event in its first cycle and sends Close-Window
for its channel 7; in the second cycle its level channel is closed, and the
cycle still runs and sends an Up input for a fresh key press.  Second run:
the client gets a quit event and sends Quit-Game; in the next cycle it
receives a level, draws it, and sends a Search input. -/
theorem C9_loop_keeps_cycling :
    (Run lcg 0
      [⟨[Event.windowClose], Recv.empty, true, List.replicate 83 0⟩,
       ⟨[], Recv.closed, true, (List.replicate 83 0).set 82 1⟩]
      (NewUI lcg (Table.store Table.empty 35 (lineRects 0 0 3)) (List.replicate 83 0) 7)).map
        (fun r => r.2.map (fun o => o.sent)) =
      some [[⟨InputType.CloseWindow, some 7⟩], [⟨InputType.Up, none⟩]] ∧
    (Run lcg 0
      [⟨[Event.quit], Recv.empty, true, List.replicate 83 0⟩,
       ⟨[], Recv.value ⟨[[35, 35]], ⟨0, 0⟩, fun _ => false⟩, true,
         (List.replicate 83 0).set 22 1⟩]
      (NewUI lcg (Table.store Table.empty 35 (lineRects 0 0 3)) (List.replicate 83 0) 7)).map
        (fun r => r.2.map (fun o => o.sent)) =
      some [[⟨InputType.QuitGame, none⟩], [⟨InputType.Search, none⟩]] ∧
    (Run lcg 0
      [⟨[Event.quit], Recv.empty, true, List.replicate 83 0⟩,
       ⟨[], Recv.value ⟨[[35, 35]], ⟨0, 0⟩, fun _ => false⟩, true,
         (List.replicate 83 0).set 22 1⟩]
      (NewUI lcg (Table.store Table.empty 35 (lineRects 0 0 3)) (List.replicate 83 0) 7)).map
        (fun r => r.2.map (fun o => o.frame.map (fun f => f.picks))) =
      some [none, some [(0, 0, 2), (1, 0, 1)]] := by
  decide

/-- C9, amended: the loop of `Run` has no exit.  Take every send on the
input channel to complete, the keyboard samples to have the length of the
previous-state slice and to cover the tracked scancodes, and the atlas table
to be non-empty for the non-blank tiles of the levels that arrive (otherwise
`Draw` panics).  Then a client that gets a quit or window-close event in a
cycle sends the Quit-Game input, or the Close-Window input carrying its own
level channel, and stays in the running state: that cycle and every later
cycle is run, in each the client draws a frame exactly when a level arrives
on its channel (so never once the channel is closed), and it sends the
inputs of that cycle's events followed by at most one key input. -/
theorem C9_client_keeps_running (R : Rand) (blank : Tile) (ui : UI R) (c : Cycle)
    (cs : List Cycle)
    (hcyc : ∀ d ∈ c :: cs, d.keyboardState.length = ui.prevKeyboardState.length ∧
      82 < d.keyboardState.length ∧
      ∀ level, d.recv = Recv.value level →
        ∀ row ∈ level.Map, ∀ tile ∈ row, tile ≠ blank → ui.textureIndex.read tile ≠ []) :
    ∃ u o outs, Run R blank (c :: cs) ui = some (u, o :: outs) ∧
      (Event.quit ∈ c.events → (⟨InputType.QuitGame, none⟩ : Input) ∈ o.sent) ∧
      (Event.windowClose ∈ c.events →
        (⟨InputType.CloseWindow, some ui.levelChan⟩ : Input) ∈ o.sent) ∧
      List.Forall₂ (fun d q => (q.frame.isSome = true ↔ ∃ level, d.recv = Recv.value level) ∧
        ∃ keys, q.sent = eventInputs ui.levelChan d.events ++ keys ∧ keys.length ≤ 1)
        (c :: cs) (o :: outs) := by
  obtain ⟨u, outs, h1, h2⟩ := Run_total R blank (c :: cs) ui hcyc
  obtain ⟨o, outs1, hhead, htail, rfl⟩ := List.forall₂_cons_left_iff.1 h2
  obtain ⟨keys, hk, _⟩ := hhead.2
  have hev := eventInputs_mem ui.levelChan c.events
  refine ⟨u, o, outs1, h1, ?_, ?_, List.Forall₂.cons hhead htail⟩
  · intro h
    rw [hk]
    exact List.mem_append_left _ (hev.1 h)
  · intro h
    rw [hk]
    exact List.mem_append_left _ (hev.2 h)

/-- Witness of C9 amended: a window-close event in the first cycle, a level
that arrives in the second, and the level channel closed in the third, with
the Up key newly pressed. -/
theorem C9_client_keeps_running_witness :
    ∃ u o outs,
      Run lcg 0
        (⟨[Event.windowClose], Recv.empty, true, List.replicate 83 0⟩ ::
          [⟨[], Recv.value ⟨[[35, 0]], ⟨0, 0⟩, fun _ => false⟩, true, List.replicate 83 0⟩,
           ⟨[], Recv.closed, true, (List.replicate 83 0).set 82 1⟩])
        (NewUI lcg (Table.store Table.empty 35 (lineRects 0 0 3)) (List.replicate 83 0) 7) =
        some (u, o :: outs) ∧
      (Event.quit ∈ [Event.windowClose] → (⟨InputType.QuitGame, none⟩ : Input) ∈ o.sent) ∧
      (Event.windowClose ∈ [Event.windowClose] →
        (⟨InputType.CloseWindow, some 7⟩ : Input) ∈ o.sent) ∧
      List.Forall₂ (fun d q => (q.frame.isSome = true ↔ ∃ level, d.recv = Recv.value level) ∧
        ∃ keys, q.sent = eventInputs 7 d.events ++ keys ∧ keys.length ≤ 1)
        ((⟨[Event.windowClose], Recv.empty, true, List.replicate 83 0⟩ : Cycle) ::
          [⟨[], Recv.value ⟨[[35, 0]], ⟨0, 0⟩, fun _ => false⟩, true, List.replicate 83 0⟩,
           ⟨[], Recv.closed, true, (List.replicate 83 0).set 82 1⟩]) (o :: outs) :=
  C9_client_keeps_running lcg 0
    (NewUI lcg (Table.store Table.empty 35 (lineRects 0 0 3)) (List.replicate 83 0) 7)
    ⟨[Event.windowClose], Recv.empty, true, List.replicate 83 0⟩
    [⟨[], Recv.value ⟨[[35, 0]], ⟨0, 0⟩, fun _ => false⟩, true, List.replicate 83 0⟩,
     ⟨[], Recv.closed, true, (List.replicate 83 0).set 82 1⟩]
    (fun d hd => by
      simp only [List.mem_cons, List.mem_singleton, List.not_mem_nil, or_false] at hd
      rcases hd with h | h | h <;> subst h
      · exact ⟨by decide, by decide, fun level hl => by cases hl⟩
      · refine ⟨by decide, by decide, fun level hl => ?_⟩
        cases hl
        decide
      · exact ⟨by decide, by decide, fun level hl => by cases hl⟩)

end Ui2d
